import Mathlib

/-!
# Verification of the pushkind-hedwig email workers

A shallow embedding, in Lean 4, of the parts of the `pushkind-hedwig`
repository that the verified claims are about:

* the per-hub IMAP reply monitor (`src/check_reply/service.rs`):
  UID ordering, watermark persistence, backlog drains;
* the message classifier (`process_new_message` in the same file);
* the MIME-parser helpers (`src/check_reply/parser.rs`):
  `extract_recipient_id` and `extract_reply_text`;
* the Diesel repository (`src/repository/email.rs`):
  `create_email` and `update_recipient`;
* the SMTP message builder (`src/send_email/message_builder.rs`).

Strings are modelled as `List Char`, Rust `u32`/`i32`/`i64` values as
`Nat`/`Int` with explicit range checks or wrapping where the source
converts between widths, and fallible repository/IO statements take an
explicit success oracle (`Nat → Bool`, indexed by the order in which the
statements are issued).
-/

namespace Hedwig

/-! ## Monitor loop (`src/check_reply/service.rs`)

`monitor_hub` keeps `last_uid : u32` and `persisted_uid : ImapUid`.
`persist_last_processed_uid` converts the candidate `u32` to `i32`
(skipping persistence when it exceeds `i32::MAX`), skips candidates that
do not exceed the stored watermark, and otherwise calls
`repo.set_imap_last_uid`, updating the in-memory mirror only on success.
-/

/-- `i32::MAX`, the bound checked by `i32::try_from(candidate_uid)`. -/
def i32Max : Int := 2147483647

/-- State threaded through `persist_last_processed_uid` calls:
`stored` is the in-memory `persisted_uid` mirror, `dbInit` the hub's
`imap_last_uid` at connection time, `calls` the arguments of every
`set_imap_last_uid` call issued, and `writes` the arguments of the
successful ones (each successful call sets `hubs.imap_last_uid` to its
argument, so `dbInit :: writes` is the history of the persisted value). -/
structure PersistSt where
  stored : Int
  dbInit : Int
  calls : List Int
  writes : List Int
  deriving Repr, DecidableEq

/-- `persist_last_processed_uid` (service.rs:203-251).  `repoOk` is the
outcome of the `set_imap_last_uid` repository call, were it issued.
`ImapUid::try_from(new_uid)` is modelled as succeeding for every
non-negative `i32` (the spec's data model: `imap_last_uid : int ≥ 0`);
`new_uid` here always comes from a successful `i32::try_from(u32)`, so it
is non-negative. -/
def persistLastProcessedUid (repoOk : Bool) (st : PersistSt) (candidate : Nat) : PersistSt :=
  if (candidate : Int) > i32Max then
    -- i32::try_from fails: warn and return without persisting
    st
  else if (candidate : Int) ≤ st.stored then
    st
  else if repoOk then
    { st with stored := (candidate : Int), calls := st.calls ++ [(candidate : Int)],
              writes := st.writes ++ [(candidate : Int)] }
  else
    { st with calls := st.calls ++ [(candidate : Int)] }

/-- `ordered_uids` (service.rs:253-257): collect the search result into a
vector and sort ascending.  `Vec::sort_unstable` on `u32` is modelled by
insertion sort; on a linear order any sorted permutation is unique, so
this is extensionally the function computed by the source. -/
def orderedUids (uids : List Nat) : List Nat :=
  List.insertionSort (· ≤ ·) uids

/-- Events of the per-UID processing loop: `process uid` is the
`process_new_message` call, `persist uid` the subsequent
`persist_last_processed_uid` call. -/
inductive MonEvent where
  | process (uid : Nat)
  | persist (uid : Nat)
  deriving Repr, DecidableEq

/-- The body of both drain loops (service.rs:296-303 and 354-358): for
each UID in order, process it, set `last_uid := uid`, then persist.
`ok k` is the outcome of the repository write issued by the `k`-th
persist call of this drain. -/
def runUids (ok : Nat → Bool) : Nat → Nat → PersistSt → List Nat → Nat × PersistSt × List MonEvent
  | _, last, st, [] => (last, st, [])
  | k, _, st, u :: us =>
    let st' := persistLastProcessedUid (ok k) st u
    let rest := runUids ok (k + 1) u st' us
    (rest.1, rest.2.1, .process u :: .persist u :: rest.2.2)

/-- The initial backlog drain (service.rs:286-303): search
`UID last_uid+1:*`, sort ascending, and process every UID **other than**
`cutoff_uid = last_uid`. -/
def initialDrain (ok : Nat → Bool) (lastUid : Nat) (st : PersistSt) (uids : List Nat) :
    Nat × PersistSt × List MonEvent :=
  runUids ok 0 lastUid st ((orderedUids uids).filter (fun uid => uid ≠ lastUid))

/-- One IDLE-loop re-drain (service.rs:345-358): search
`UID last_uid+1:*`, sort ascending, and process **every** UID returned
(the source applies no cutoff filter here). -/
def loopDrain (ok : Nat → Bool) (lastUid : Nat) (st : PersistSt) (uids : List Nat) :
    Nat × PersistSt × List MonEvent :=
  runUids ok 0 lastUid st (orderedUids uids)

/-- Monitor state at connection time (service.rs:283-284):
`last_uid = hub.imap_last_uid as u32` and `persisted_uid = hub.imap_last_uid`,
with no `set_imap_last_uid` call issued yet. -/
def initSt (imapLastUid : Int) : PersistSt :=
  { stored := imapLastUid, dbInit := imapLastUid, calls := [], writes := [] }

/-- The UIDs a drain processes, in processing order. -/
def processedUids (evs : List MonEvent) : List Nat :=
  evs.filterMap (fun e => match e with | .process u => some u | .persist _ => none)

end Hedwig

/-! ### Theorems about the drain loops -/

namespace Hedwig

theorem runUids_events (ok : Nat → Bool) (k last : Nat) (st : PersistSt) (us : List Nat) :
    (runUids ok k last st us).2.2 = us.flatMap (fun u => [.process u, .persist u]) := by
  induction us generalizing k last st with
  | nil => rfl
  | cons u us ih => simp [runUids, ih]

theorem processedUids_flatMap (us : List Nat) :
    processedUids (us.flatMap (fun u => [.process u, .persist u])) = us := by
  induction us with
  | nil => rfl
  | cons u us ih => simp [processedUids, List.flatMap_cons] at ih ⊢; exact ih

theorem orderedUids_sorted (uids : List Nat) : (orderedUids uids).Sorted (· ≤ ·) :=
  List.sorted_insertionSort _ uids

theorem orderedUids_perm (uids : List Nat) : (orderedUids uids).Perm uids :=
  List.perm_insertionSort _ uids

/-- Sorted and duplicate-free means strictly ascending. -/
theorem chain'_lt_of_sorted_nodup {l : List Nat} (hs : l.Sorted (· ≤ ·)) (hn : l.Nodup) :
    l.Chain' (· < ·) := by
  have : l.Pairwise (· < ·) := by
    have := List.Pairwise.and hs hn
    exact this.imp (fun h => lt_of_le_of_ne h.1 h.2)
  exact this.chain'

theorem persist_dbInit (okc : Bool) (st : PersistSt) (c : Nat) :
    (persistLastProcessedUid okc st c).dbInit = st.dbInit := by
  unfold persistLastProcessedUid
  split_ifs <;> rfl

theorem runUids_dbInit (ok : Nat → Bool) (k last : Nat) (st : PersistSt) (us : List Nat) :
    (runUids ok k last st us).2.1.dbInit = st.dbInit := by
  induction us generalizing k last st with
  | nil => rfl
  | cons u us ih => simp [runUids, ih, persist_dbInit]

/-- Current value of `hubs.imap_last_uid` for this hub: the last
successful write, or the initial value when none was issued. -/
def dbVal (st : PersistSt) : Int :=
  st.writes.getLastD st.dbInit

/-- The invariant maintained across persist calls: the history of
persisted values is strictly increasing and the in-memory mirror is at
least the persisted value. -/
def PersistWF (st : PersistSt) : Prop :=
  (st.dbInit :: st.writes).Chain' (· < ·) ∧ dbVal st ≤ st.stored

theorem getLast?_cons_eq_getLastD (a : Int) (l : List Int) :
    (a :: l).getLast? = some (l.getLastD a) := by
  induction l generalizing a with
  | nil => rfl
  | cons b l ih => rw [List.getLastD_cons, ← ih b]; rfl

theorem getLastD_append_singleton (a n : Int) (l : List Int) :
    (l ++ [n]).getLastD a = n := by
  induction l generalizing a with
  | nil => rfl
  | cons b l ih => rw [List.cons_append, List.getLastD_cons]; exact ih b

theorem persist_wf (okc : Bool) (st : PersistSt) (c : Nat) (h : PersistWF st) :
    PersistWF (persistLastProcessedUid okc st c) := by
  obtain ⟨hchain, hmir⟩ := h
  unfold dbVal at hmir
  unfold persistLastProcessedUid
  split_ifs with hmax hle hok
  · exact ⟨hchain, hmir⟩
  · exact ⟨hchain, hmir⟩
  · push_neg at hle
    refine ⟨?_, ?_⟩
    · show ((st.dbInit :: st.writes) ++ [(c : Int)]).Chain' (· < ·)
      rw [List.chain'_append]
      refine ⟨hchain, List.chain'_singleton _, ?_⟩
      intro x hx y hy
      rw [getLast?_cons_eq_getLastD] at hx
      simp only [Option.mem_def, Option.some.injEq] at hx
      simp only [List.head?_cons, Option.mem_def, Option.some.injEq] at hy
      subst hx; subst hy
      exact lt_of_le_of_lt hmir hle
    · show (st.writes ++ [(c : Int)]).getLastD st.dbInit ≤ (c : Int)
      rw [getLastD_append_singleton]
  · exact ⟨hchain, hmir⟩

theorem runUids_wf (ok : Nat → Bool) (k last : Nat) (st : PersistSt) (us : List Nat)
    (h : PersistWF st) : PersistWF (runUids ok k last st us).2.1 := by
  induction us generalizing k last st with
  | nil => exact h
  | cons u us ih => exact ih _ _ _ (persist_wf _ _ _ h)

theorem initSt_wf (v : Int) : PersistWF (initSt v) :=
  ⟨List.chain'_singleton _, le_refl v⟩

/-- **C1**: within a drain, UIDs are processed in strictly ascending
order, and the watermark-persistence call for each UID is issued before
the next UID is processed (the event trace alternates
`process u, persist u` in sorted UID order).  In particular, starting
from `imap_last_uid = 0` with search result `{5,3,4}`, the processing
order is `3, 4, 5` and `imap_last_uid` is written as `3`, then `4`,
then `5`. -/
theorem monitor_uid_ordering (uids : List Nat) (ok : Nat → Bool) (lastUid : Nat)
    (st : PersistSt) (hnd : uids.Nodup) :
    ((initialDrain ok lastUid st uids).2.2
        = ((orderedUids uids).filter (fun u => u ≠ lastUid)).flatMap
            (fun u => [.process u, .persist u])
      ∧ processedUids (initialDrain ok lastUid st uids).2.2
          = (orderedUids uids).filter (fun u => u ≠ lastUid)
      ∧ (processedUids (initialDrain ok lastUid st uids).2.2).Chain' (· < ·))
    ∧ (processedUids (initialDrain (fun _ => true) 0 (initSt 0) [5, 3, 4]).2.2 = [3, 4, 5]
      ∧ (initialDrain (fun _ => true) 0 (initSt 0) [5, 3, 4]).2.1.writes = [3, 4, 5]) := by
  refine ⟨⟨runUids_events .., ?_, ?_⟩, by decide, by decide⟩
  · rw [initialDrain, runUids_events, processedUids_flatMap]
  · rw [initialDrain, runUids_events, processedUids_flatMap]
    refine chain'_lt_of_sorted_nodup (List.Pairwise.filter _ (orderedUids_sorted uids)) ?_
    exact ((orderedUids_perm uids).nodup_iff.mpr hnd).filter _

/-- Witness for `monitor_uid_ordering` at the spec's boundary scenario. -/
theorem monitor_uid_ordering_witness :
    [5, 3, 4].Nodup ∧
      processedUids (initialDrain (fun _ => true) 0 (initSt 0) [5, 3, 4]).2.2 = [3, 4, 5] :=
  ⟨by decide, (monitor_uid_ordering [5, 3, 4] (fun _ => true) 0 (initSt 0) (by decide)).2.1⟩

/-- **C2**: the persisted watermark never decreases.  A candidate that
does not exceed the stored value issues no `set_imap_last_uid` call; a
candidate beyond `i32::MAX` skips persistence entirely; and over any
sequence of persist operations the history of `hub.imap_last_uid`
values is monotonically non-decreasing. -/
theorem watermark_monotone (st : PersistSt) (cand : Nat) (okc : Bool)
    (init : Int) (ok : Nat → Bool) (k last : Nat) (uids : List Nat) :
    ((cand : Int) ≤ st.stored → (persistLastProcessedUid okc st cand).calls = st.calls)
    ∧ ((cand : Int) > i32Max → persistLastProcessedUid okc st cand = st)
    ∧ ((runUids ok k last (initSt init) uids).2.1.dbInit
          :: (runUids ok k last (initSt init) uids).2.1.writes).Chain' (· ≤ ·) := by
  refine ⟨?_, ?_, ?_⟩
  · intro hle
    unfold persistLastProcessedUid
    split_ifs <;> rfl
  · intro hgt
    unfold persistLastProcessedUid
    rw [if_pos hgt]
  · have hwf := runUids_wf ok k last (initSt init) uids (initSt_wf init)
    exact List.Chain'.imp (fun a b hab => le_of_lt hab) hwf.1

/-- Witness for `watermark_monotone` on a concrete run. -/
theorem watermark_monotone_witness :
    ((3 : Int) ≤ (initSt 3).stored →
      (persistLastProcessedUid true (initSt 3) 3).calls = (initSt 3).calls)
    ∧ ((3 : Int) > i32Max → persistLastProcessedUid true (initSt 3) 3 = initSt 3)
    ∧ ((runUids (fun _ => true) 0 0 (initSt 0) [2, 9, 4]).2.1.dbInit
          :: (runUids (fun _ => true) 0 0 (initSt 0) [2, 9, 4]).2.1.writes).Chain' (· ≤ ·) :=
  watermark_monotone (initSt 3) 3 true 0 (fun _ => true) 0 0 [2, 9, 4]

/-- **C5, counterexample**: the claim says every backlog drain — the
initial one and each post-IDLE re-drain — excludes the UID equal to the
current `last_uid`.  The IDLE-loop re-drain (service.rs:354-358) applies
no such filter: with `last_uid = 7` and the server returning `{7}` for
an empty mailbox delta, the re-drain processes UID 7 again, while the
initial drain (service.rs:296-299) would have excluded it. -/
theorem loop_drain_reprocesses_cutoff :
    7 ∈ processedUids (loopDrain (fun _ => true) 7 (initSt 7) [7]).2.2
    ∧ processedUids (initialDrain (fun _ => true) 7 (initSt 7) [7]).2.2 = [] := by
  decide

/-- **C5, amended**: only the initial backlog drain excludes
`last_uid` (the cutoff); a post-IDLE re-drain processes every UID
returned by the `UID last_uid+1:*` search, sorted ascending, including
`last_uid` itself when the server returns it for an empty delta. -/
theorem drain_cutoff_only_initial (ok : Nat → Bool) (lastUid : Nat) (st : PersistSt)
    (uids : List Nat) :
    processedUids (initialDrain ok lastUid st uids).2.2
      = (orderedUids uids).filter (fun u => u ≠ lastUid)
    ∧ processedUids (loopDrain ok lastUid st uids).2.2 = orderedUids uids := by
  constructor
  · rw [initialDrain, runUids_events, processedUids_flatMap]
  · rw [loopDrain, runUids_events, processedUids_flatMap]

end Hedwig

namespace Hedwig

/-! ## `extract_recipient_id` (src/check_reply/parser.rs:60-76)

The source takes the parsed mail, reads the first `In-Reply-To` header
value, and scans it: for each `<`-delimited segment (skipping the text
before the first `<`), the prefix up to `>` is split on `@`; when the
second `@`-part equals the configured domain and the first parses as an
`i32`, that value is returned.  The embedding takes the header value
directly; the header lookup is `mailparse` plumbing. -/

/-- Rust `char::is_ascii_digit` on the id characters (what
`i32::from_str` accepts for each digit position). -/
def isAsciiDigit (c : Char) : Bool :=
  48 ≤ c.toNat && c.toNat ≤ 57

/-- Decimal value of a digit string, most significant digit first. -/
def digitsToNat (l : List Char) : Nat :=
  l.foldl (fun a c => 10 * a + (c.toNat - 48)) 0

/-- Digits-with-sign part of `i32::from_str`: fails on an empty digit
string, a non-digit character, or overflow past `i32::MAX` (resp.
`i32::MIN` for negative input). -/
def parseI32Digits (neg : Bool) (ds : List Char) : Option Int :=
  if ds = [] ∨ ¬ ds.all isAsciiDigit then none
  else if neg then
    if (digitsToNat ds : Int) ≤ i32Max + 1 then some (-(digitsToNat ds : Int)) else none
  else
    if (digitsToNat ds : Int) ≤ i32Max then some (digitsToNat ds : Int) else none

/-- Rust `str::parse::<i32>()` (`i32::from_str`): an optional single
leading `+`/`-` sign followed by one or more ASCII digits, within the
`i32` range. -/
def parseI32 (l : List Char) : Option Int :=
  if l.head? = some '+' then parseI32Digits false l.tail
  else if l.head? = some '-' then parseI32Digits true l.tail
  else parseI32Digits false l

/-- The loop body of `extract_recipient_id`: iterate over the segments
after each `<`; `candidate` is the segment's prefix up to `>`; split it
on `@` and compare the second part with the domain. -/
def extractLoop (domain : List Char) : List (List Char) → Option Int
  | [] => none
  | seg :: rest =>
    let candidate := ((seg.splitOn '>').headI)
    match candidate.splitOn '@' with
    | id :: msgDomain :: _ =>
      if msgDomain = domain then
        match parseI32 id with
        | some v => some v
        | none => extractLoop domain rest
      else extractLoop domain rest
    | _ => extractLoop domain rest

/-- `extract_recipient_id` on the `In-Reply-To` header value. -/
def extractRecipientId (header : List Char) (domain : List Char) : Option Int :=
  extractLoop domain ((header.splitOn '<').drop 1)

/-- Decimal representation of a natural number (what
`format!("{k}")`/`i32`'s `Display` produces for `k ≥ 0`). -/
def natChars (k : Nat) : List Char :=
  if k = 0 then ['0'] else ((Nat.digits 10 k).reverse.map Nat.digitChar)

end Hedwig

namespace Hedwig

theorem splitOn_of_not_mem {c : Char} {A : List Char} (h : c ∉ A) : A.splitOn c = [A] := by
  unfold List.splitOn
  refine List.splitOnP_eq_single _ _ ?_
  intro x hx
  simp only [beq_iff_eq]
  rintro rfl
  exact h hx

theorem splitOn_append {c : Char} {A : List Char} (h : c ∉ A) (B : List Char) :
    (A ++ c :: B).splitOn c = A :: B.splitOn c := by
  unfold List.splitOn
  refine List.splitOnP_first _ _ ?_ c (by simp) B
  intro x hx
  simp only [beq_iff_eq]
  rintro rfl
  exact h hx

theorem headI_modifyHead_cons (a : Char) (L : List (List Char)) (h : L ≠ []) :
    (L.modifyHead (fun l => a :: l)).headI = a :: L.headI := by
  cases L with
  | nil => exact absurd rfl h
  | cons l ls => rfl

theorem headI_splitOn_append {c : Char} (A R : List Char) (h : c ∉ A) :
    ((A ++ R).splitOn c).headI = A ++ (R.splitOn c).headI := by
  induction A with
  | nil => simp
  | cons a A ih =>
    have ha : ¬ (a == c) = true := by
      simp only [beq_iff_eq]
      rintro rfl
      exact h (List.mem_cons_self _ _)
    have hA : c ∉ A := fun hc => h (List.mem_cons_of_mem _ hc)
    show (((a :: (A ++ R)).splitOn c)).headI = _
    unfold List.splitOn
    rw [List.splitOnP_cons, if_neg ha]
    rw [headI_modifyHead_cons _ _ (List.splitOnP_ne_nil _ _)]
    have := ih hA
    unfold List.splitOn at this
    rw [this]
    rfl

theorem digitChar_digit {d : Nat} (hd : d < 10) :
    isAsciiDigit (Nat.digitChar d) = true ∧ (Nat.digitChar d).toNat - 48 = d := by
  interval_cases d <;> exact ⟨rfl, rfl⟩

theorem foldr_digits_eq_ofDigits (L : List Nat) (hL : ∀ d ∈ L, d < 10) :
    L.foldr (fun x y => 10 * y + (x.digitChar.toNat - 48)) 0 = Nat.ofDigits 10 L := by
  induction L with
  | nil => rfl
  | cons d L ih =>
    have hd := hL d (List.mem_cons_self _ _)
    have hrec := ih (fun x hx => hL x (List.mem_cons_of_mem _ hx))
    simp only [List.foldr_cons, hrec, (digitChar_digit hd).2]
    rw [Nat.ofDigits_cons]
    ring

theorem digitsToNat_natChars (k : Nat) : digitsToNat (natChars k) = k := by
  unfold natChars
  split_ifs with h0
  · subst h0; decide
  · unfold digitsToNat
    rw [List.foldl_map, List.foldl_reverse]
    rw [foldr_digits_eq_ofDigits _ (fun d hd => Nat.digits_lt_base (by norm_num) hd)]
    exact_mod_cast Nat.ofDigits_digits 10 k

theorem natChars_all_digits (k : Nat) : ∀ c ∈ natChars k, isAsciiDigit c = true := by
  unfold natChars
  split_ifs with h0
  · intro c hc; simp at hc; subst hc; decide
  · intro c hc
    simp only [List.mem_map, List.mem_reverse] at hc
    obtain ⟨d, hd, rfl⟩ := hc
    exact (digitChar_digit (Nat.digits_lt_base (by norm_num) hd)).1

theorem natChars_ne_nil (k : Nat) : natChars k ≠ [] := by
  unfold natChars
  split_ifs with h0
  · simp
  · simp [Nat.digits_ne_nil_iff_ne_zero.mpr h0]

theorem digit_not_special {c : Char} (h : isAsciiDigit c = true) :
    c ≠ '<' ∧ c ≠ '>' ∧ c ≠ '@' ∧ c ≠ '+' ∧ c ≠ '-' := by
  unfold isAsciiDigit at h
  simp only [Bool.and_eq_true, decide_eq_true_eq] at h
  refine ⟨?_, ?_, ?_, ?_, ?_⟩ <;> rintro rfl <;> revert h <;> decide

theorem parseI32_natChars {k : Nat} (hk : (k : Int) ≤ i32Max) :
    parseI32 (natChars k) = some (k : Int) := by
  have hall := natChars_all_digits k
  have hne := natChars_ne_nil k
  unfold parseI32
  obtain ⟨c, cs, hc⟩ : ∃ c cs, natChars k = c :: cs := by
    cases h : natChars k with
    | nil => exact absurd h hne
    | cons c cs => exact ⟨c, cs, rfl⟩
  have hcd := hall c (by rw [hc]; exact List.mem_cons_self _ _)
  have hspec := digit_not_special hcd
  rw [hc]
  simp only [List.head?_cons]
  rw [if_neg (by simp [hspec.2.2.2.1]), if_neg (by simp [hspec.2.2.2.2])]
  rw [← hc]
  unfold parseI32Digits
  have hcond : ¬ (natChars k = [] ∨ ¬ (natChars k).all isAsciiDigit) := by
    push_neg
    refine ⟨hne, ?_⟩
    simp only [List.all_eq_true]
    exact fun x hx => hall x hx
  rw [if_neg hcond, if_neg (by decide : ¬ (false = true))]
  rw [digitsToNat_natChars, if_pos hk]

end Hedwig

namespace Hedwig

/-- Evaluation of `extract_recipient_id` on a header whose first
angle-bracket token is `<i@d'>`: the first candidate considered is
`i@d'`, and with an empty remainder the scan has nothing further to
try. -/
theorem extractRecipientId_eval (d i d' R : List Char)
    (hi : ∀ c ∈ i, c ≠ '<' ∧ c ≠ '>' ∧ c ≠ '@')
    (h1 : '<' ∉ d') (h2 : '>' ∉ d') (h3 : '@' ∉ d') :
    ∃ rest : List (List Char),
      (extractRecipientId ('<' :: (i ++ '@' :: d' ++ '>' :: R)) d
        = if d' = d then
            (match parseI32 i with
              | some v => some v
              | none => extractLoop d rest)
          else extractLoop d rest)
      ∧ (R = [] → rest = []) := by
  have hiNoLt : '<' ∉ i := fun hc => (hi _ hc).1 rfl
  have hiNoGt : '>' ∉ i := fun hc => (hi _ hc).2.1 rfl
  have hiNoAt : '@' ∉ i := fun hc => (hi _ hc).2.2 rfl
  have hANoLt : '<' ∉ (i ++ '@' :: d') ++ ['>'] := by
    simp only [List.mem_append, List.mem_cons, List.mem_singleton]
    rintro ((hc | hc | hc) | hc)
    · exact hiNoLt hc
    · exact absurd hc.symm (by decide)
    · exact h1 hc
    · exact absurd hc (by decide)
  have hBNoGt : '>' ∉ i ++ '@' :: d' := by
    simp only [List.mem_append, List.mem_cons]
    rintro (hc | hc | hc)
    · exact hiNoGt hc
    · exact absurd hc.symm (by decide)
    · exact h2 hc
  have hdrop : (((('<' : Char) :: (i ++ '@' :: d' ++ '>' :: R)).splitOn '<').drop 1)
      = (i ++ '@' :: d' ++ '>' :: R).splitOn '<' := by
    show ((('<' : Char) :: (i ++ '@' :: d' ++ '>' :: R)).splitOnP (· == '<')).drop 1 = _
    rw [List.splitOnP_cons, if_pos (by simp)]
    rfl
  have hshape : (i ++ '@' :: d' ++ '>' :: R) = ((i ++ '@' :: d') ++ ['>']) ++ R := by
    simp
  obtain ⟨seg, rest, hsr⟩ :
      ∃ seg rest, (i ++ '@' :: d' ++ '>' :: R).splitOn '<' = seg :: rest := by
    cases h : (i ++ '@' :: d' ++ '>' :: R).splitOn '<' with
    | nil => exact absurd h (List.splitOnP_ne_nil _ _)
    | cons a b => exact ⟨a, b, rfl⟩
  have hseg : seg = (i ++ '@' :: d') ++ '>' :: ((R.splitOn '<').headI) := by
    have hh := headI_splitOn_append ((i ++ '@' :: d') ++ ['>']) R hANoLt
    rw [← hshape, hsr] at hh
    simpa using hh
  have hcand : (seg.splitOn '>').headI = i ++ '@' :: d' := by
    rw [hseg, splitOn_append hBNoGt]
    rfl
  have hat : (i ++ '@' :: d').splitOn '@' = [i, d'] := by
    rw [splitOn_append hiNoAt, splitOn_of_not_mem h3]
  refine ⟨rest, ?_, ?_⟩
  · rw [extractRecipientId, hdrop, hsr]
    show extractLoop d (seg :: rest) = _
    rw [extractLoop]
    simp only [hcand, hat]
  · rintro rfl
    have : (i ++ '@' :: d' ++ '>' :: ([] : List Char)).splitOn '<' =
        [i ++ '@' :: d' ++ ['>']] := by
      refine splitOn_of_not_mem ?_
      rw [hshape]
      simpa using hANoLt
    rw [this] at hsr
    exact (List.cons.injEq _ _ _ _ ▸ hsr).2.symm

/-- **C7, counterexample**: the claim says `extract_recipient_id`
returns `None` whenever the id part of the token is not a valid
non-negative integer.  `i32::from_str` accepts a sign, so the header
`<-5@example.com>` yields `Some(-5)`, not `None`. -/
theorem extract_recipient_id_counterexample :
    extractRecipientId ("<-5@example.com>".toList) ("example.com".toList) = some (-5)
    ∧ (-5 : Int) < 0 := by
  constructor
  · decide
  · decide

/-- **C7, amended**: for every domain free of `<`, `>`, `@` and every
`0 ≤ k ≤ i32::MAX`, a header whose first token is `<k@domain>` yields
`Some(k)` (whatever follows, i.e. the first matching token wins); a
single-token header yields `None` when the token's domain differs from
the configured one or when its id part does not parse as a **signed**
32-bit integer (in particular when it is not numeric); a parsable
negative id is returned as is (see the counterexample). -/
theorem extract_recipient_id_amended :
    (∀ (k : Nat) (d R : List Char), (k : Int) ≤ i32Max →
        '<' ∉ d → '>' ∉ d → '@' ∉ d →
        extractRecipientId ('<' :: (natChars k ++ '@' :: d ++ '>' :: R)) d = some (k : Int))
    ∧ (∀ (i d d' : List Char), d' ≠ d →
        (∀ c ∈ i, c ≠ '<' ∧ c ≠ '>' ∧ c ≠ '@') →
        '<' ∉ d' → '>' ∉ d' → '@' ∉ d' →
        extractRecipientId ('<' :: (i ++ '@' :: d' ++ '>' :: [])) d = none)
    ∧ (∀ (i d : List Char), parseI32 i = none →
        (∀ c ∈ i, c ≠ '<' ∧ c ≠ '>' ∧ c ≠ '@') →
        '<' ∉ d → '>' ∉ d → '@' ∉ d →
        extractRecipientId ('<' :: (i ++ '@' :: d ++ '>' :: [])) d = none) := by
  refine ⟨?_, ?_, ?_⟩
  · intro k d R hk hd1 hd2 hd3
    have hi : ∀ c ∈ natChars k, c ≠ '<' ∧ c ≠ '>' ∧ c ≠ '@' := by
      intro c hc
      have := digit_not_special (natChars_all_digits k c hc)
      exact ⟨this.1, this.2.1, this.2.2.1⟩
    obtain ⟨rest, heval, -⟩ := extractRecipientId_eval d (natChars k) d R hi hd1 hd2 hd3
    rw [heval, if_pos rfl, parseI32_natChars hk]
  · intro i d d' hne hi hd1 hd2 hd3
    obtain ⟨rest, heval, hrest⟩ := extractRecipientId_eval d i d' [] hi hd1 hd2 hd3
    rw [heval, if_neg hne, hrest rfl]
    rfl
  · intro i d hparse hi hd1 hd2 hd3
    obtain ⟨rest, heval, hrest⟩ := extractRecipientId_eval d i d [] hi hd1 hd2 hd3
    rw [heval, if_pos rfl, hparse, hrest rfl]
    rfl

/-- Witness for `extract_recipient_id_amended` on concrete headers. -/
theorem extract_recipient_id_amended_witness :
    extractRecipientId ('<' :: (natChars 42 ++ '@' :: "example.com".toList ++ '>' :: []))
        "example.com".toList = some (42 : Int)
    ∧ extractRecipientId ('<' :: ("7".toList ++ '@' :: "other.com".toList ++ '>' :: []))
        "example.com".toList = none
    ∧ extractRecipientId ('<' :: ("x7".toList ++ '@' :: "example.com".toList ++ '>' :: []))
        "example.com".toList = none :=
  ⟨extract_recipient_id_amended.1 42 "example.com".toList [] (by decide) (by decide)
      (by decide) (by decide),
   extract_recipient_id_amended.2.1 "7".toList "example.com".toList "other.com".toList
      (by decide) (by decide) (by decide) (by decide) (by decide),
   extract_recipient_id_amended.2.2 "x7".toList "example.com".toList (by decide)
      (by decide) (by decide) (by decide) (by decide)⟩

end Hedwig

namespace Hedwig

/-! ## Repository (`src/repository/email.rs`)

`update_recipient` (email.rs:127-213) runs as a straight-line sequence
of statements on one pooled connection — a `SELECT` of the recipient's
`email_id`, one `UPDATE` per provided field, three `COUNT`s, the
counter `UPDATE` on `emails`, and two final `SELECT`s — with **no**
`conn.transaction` wrapper.  `create_email` (email.rs:88-125) runs
inside `conn.transaction`, so a failure rolls everything back.

Each fallible statement consults the success oracle `ok` at its
position in issue order; a failing statement aborts the remaining
sequence with the current database state (no rollback for
`update_recipient`). -/

structure EmailRecipientRow where
  id : Int
  emailId : Int
  address : String
  name : Option String
  isSent : Bool
  opened : Bool
  replied : Bool
  reply : Option String
  updatedAt : Int
  deriving Repr, DecidableEq

structure EmailRow where
  id : Int
  hubId : Int
  message : String
  numSent : Int
  numOpened : Int
  numReplied : Int
  deriving Repr, DecidableEq

structure Db where
  emails : List EmailRow
  recipients : List EmailRecipientRow
  deriving Repr, DecidableEq

/-- `UpdateEmailRecipient` (the partial-update argument). -/
structure UpdateEmailRecipient where
  isSent : Option Bool
  opened : Option Bool
  replied : Option Bool
  reply : Option String
  deriving Repr, DecidableEq

/-- One `UPDATE email_recipients ... WHERE id = rid` statement. -/
def applyUpd (db : Db) (rid : Int) (f : EmailRecipientRow → EmailRecipientRow) : Db :=
  { db with recipients := db.recipients.map (fun r => if r.id == rid then f r else r) }

/-- The per-field `UPDATE` statements of `update_recipient`, in source
order (`is_sent`, `opened`, `replied`, `reply`), each also refreshing
`updated_at`. -/
def fieldStmts (u : UpdateEmailRecipient) (now : Int) :
    List (EmailRecipientRow → EmailRecipientRow) :=
  (match u.isSent with
    | some b => [fun r => { r with isSent := b, updatedAt := now }]
    | none => []) ++
  (match u.opened with
    | some b => [fun r => { r with opened := b, updatedAt := now }]
    | none => []) ++
  (match u.replied with
    | some b => [fun r => { r with replied := b, updatedAt := now }]
    | none => []) ++
  (match u.reply with
    | some t => [fun r => { r with reply := some t, updatedAt := now }]
    | none => [])

/-- Execute the field updates one statement at a time; a failing
statement leaves the database as the previous statements made it. -/
def runStmts (ok : Nat → Bool) :
    Nat → Db → Int → List (EmailRecipientRow → EmailRecipientRow) → Db × Nat × Bool
  | k, db, _, [] => (db, k, true)
  | k, db, rid, f :: fs =>
    if ok k then runStmts ok (k + 1) (applyUpd db rid f) rid fs else (db, k, false)

/-- `i64 as i32` (the cast applied to each `COUNT` result). -/
def wrap32 (n : Int) : Int :=
  (n + 2 ^ 31) % 2 ^ 32 - 2 ^ 31

/-- One `COUNT` statement of `update_recipient`, with its `as i32`. -/
def countTrue (db : Db) (eid : Int) (p : EmailRecipientRow → Bool) : Int :=
  wrap32 ((db.recipients.filter (fun r => r.emailId == eid && p r)).length)

/-- `update_recipient` (email.rs:127-213).  Statement indices: 0 is the
`email_id` `SELECT`, `1..` the per-field `UPDATE`s, then the three
`COUNT`s, the `emails` `UPDATE`, the email `SELECT` and the recipient
load.  There is no transaction: every early `(db, none)` exit returns
the database as mutated so far. -/
def updateRecipient (ok : Nat → Bool) (now : Int) (db : Db) (rid : Int)
    (u : UpdateEmailRecipient) : Db × Option (EmailRow × List EmailRecipientRow) :=
  if ¬ ok 0 then (db, none)
  else
    match db.recipients.find? (fun r => r.id == rid) with
    | none => (db, none)
    | some r0 =>
      let eid := r0.emailId
      let step := runStmts ok 1 db rid (fieldStmts u now)
      let db1 := step.1
      let k := step.2.1
      if ¬ step.2.2 then (db1, none)
      else if ¬ ok k then (db1, none)
      else
        let ns := countTrue db1 eid (fun r => r.isSent)
        if ¬ ok (k + 1) then (db1, none)
        else
          let no := countTrue db1 eid (fun r => r.opened)
          if ¬ ok (k + 2) then (db1, none)
          else
            let nr := countTrue db1 eid (fun r => r.replied)
            if ¬ ok (k + 3) then (db1, none)
            else
              let db2 : Db := { db1 with emails := db1.emails.map (fun e =>
                if e.id == eid then
                  { e with numSent := ns, numOpened := no, numReplied := nr }
                else e) }
              if ¬ ok (k + 4) then (db2, none)
              else
                match db2.emails.find? (fun e => e.id == eid) with
                | none => (db2, none)
                | some e =>
                  if ¬ ok (k + 5) then (db2, none)
                  else (db2, some (e, db2.recipients.filter (fun r => r.emailId == eid)))

/-- New-email input (`NewEmail` with its recipients). -/
structure NewEmailRecipientArg where
  address : String
  name : Option String
  deriving Repr, DecidableEq

structure NewEmailArg where
  hubId : Int
  message : String
  recipients : List NewEmailRecipientArg
  deriving Repr, DecidableEq

/-- The email row inserted by `create_email` (counters at their column
default 0). -/
def crEmailRow (ne : NewEmailArg) (eid : Int) : EmailRow :=
  { id := eid, hubId := ne.hubId, message := ne.message,
    numSent := 0, numOpened := 0, numReplied := 0 }

/-- The recipient rows inserted by `create_email`:
`is_sent = opened = replied = false`, `updated_at = created_at`. -/
def crRecRows (ne : NewEmailArg) (eid ridStart now : Int) : List EmailRecipientRow :=
  ne.recipients.enum.map (fun p =>
    ({ id := ridStart + (p.1 : Int), emailId := eid, address := p.2.address,
       name := p.2.name, isSent := false, opened := false, replied := false,
       reply := none, updatedAt := now } : EmailRecipientRow))

/-- `create_email` (email.rs:88-125), wrapped in `conn.transaction`: on
any statement failure the transaction rolls back and the original
database is returned (which statement failed is irrelevant to the
outcome).  Statements: the email insert, one insert per recipient, and
the final recipient load.  The inserted email row's counters are 0: the
`emails.num_*` columns are `NOT NULL DEFAULT 0` (tests/repository.rs
schema) and the insert supplies no counter values.  `eid` and `ridStart`
model the fresh SQLite primary keys. -/
def createEmail (ok : Nat → Bool) (db : Db) (ne : NewEmailArg) (eid ridStart now : Int) :
    Db × Option (EmailRow × List EmailRecipientRow) :=
  if ¬ ((List.range (ne.recipients.length + 2)).all ok) then (db, none)
  else
    let db' : Db := { emails := db.emails ++ [crEmailRow ne eid],
                      recipients := db.recipients ++ crRecRows ne eid ridStart now }
    (db', some (crEmailRow ne eid, db'.recipients.filter (fun r => r.emailId == eid)))

/-- The compound effect of all provided field updates on one row. -/
def applyFields (u : UpdateEmailRecipient) (now : Int) (r : EmailRecipientRow) :
    EmailRecipientRow :=
  (fieldStmts u now).foldl (fun r f => f r) r

end Hedwig

namespace Hedwig

theorem runStmts_all_ok (k : Nat) (db : Db) (rid : Int)
    (fs : List (EmailRecipientRow → EmailRecipientRow)) :
    runStmts (fun _ => true) k db rid fs
      = (fs.foldl (fun d f => applyUpd d rid f) db, k + fs.length, true) := by
  induction fs generalizing k db with
  | nil => simp [runStmts]
  | cons f fs ih =>
    simp [runStmts, ih]
    omega

theorem fieldStmts_preserve_id (u : UpdateEmailRecipient) (now : Int) :
    ∀ f ∈ fieldStmts u now, ∀ r, (f r).id = r.id := by
  intro f hf r
  unfold fieldStmts at hf
  simp only [List.mem_append] at hf
  rcases hf with ((hf | hf) | hf) | hf
  · cases h : u.isSent <;> rw [h] at hf <;> simp at hf
    subst hf; rfl
  · cases h : u.opened <;> rw [h] at hf <;> simp at hf
    subst hf; rfl
  · cases h : u.replied <;> rw [h] at hf <;> simp at hf
    subst hf; rfl
  · cases h : u.reply <;> rw [h] at hf <;> simp at hf
    subst hf; rfl

theorem foldl_applyUpd (db : Db) (rid : Int)
    (fs : List (EmailRecipientRow → EmailRecipientRow))
    (hid : ∀ f ∈ fs, ∀ r, (f r).id = r.id) :
    fs.foldl (fun d f => applyUpd d rid f) db
      = { db with recipients := db.recipients.map (fun r =>
            if r.id == rid then fs.foldl (fun r f => f r) r else r) } := by
  induction fs generalizing db with
  | nil => simp
  | cons f fs ih =>
    rw [List.foldl_cons, ih (applyUpd db rid f) (fun g hg => hid g (List.mem_cons_of_mem _ hg))]
    show ({ applyUpd db rid f with recipients := (applyUpd db rid f).recipients.map _ } : Db) = _
    unfold applyUpd
    simp only [List.map_map]
    congr 1
    apply List.map_congr_left
    intro r _
    simp only [Function.comp_apply]
    by_cases h : r.id == rid
    · have hfid : (f r).id = r.id := hid f (List.mem_cons_self _ _) r
      simp only [if_pos h, hfid, h, if_pos, List.foldl_cons]
    · simp only [if_neg h]

/-- Database state after the per-field `UPDATE`s of `update_recipient`. -/
def dbAfterFields (now : Int) (db : Db) (rid : Int) (u : UpdateEmailRecipient) : Db :=
  { db with recipients := db.recipients.map (fun r =>
      if r.id == rid then applyFields u now r else r) }

/-- Database state after a fully successful `update_recipient`. -/
def dbAfterUpdate (now : Int) (db : Db) (rid : Int) (u : UpdateEmailRecipient) (eid : Int) :
    Db :=
  { dbAfterFields now db rid u with
    emails := (dbAfterFields now db rid u).emails.map (fun e =>
      if e.id == eid then
        { e with
          numSent := countTrue (dbAfterFields now db rid u) eid (fun r => r.isSent),
          numOpened := countTrue (dbAfterFields now db rid u) eid (fun r => r.opened),
          numReplied := countTrue (dbAfterFields now db rid u) eid (fun r => r.replied) }
      else e) }

theorem updateRecipient_ok_spec (now : Int) (db : Db) (rid : Int)
    (u : UpdateEmailRecipient) (r0 : EmailRecipientRow)
    (hfind : db.recipients.find? (fun r => r.id == rid) = some r0) :
    updateRecipient (fun _ => true) now db rid u
      = match (dbAfterUpdate now db rid u r0.emailId).emails.find?
            (fun e => e.id == r0.emailId) with
        | none => (dbAfterUpdate now db rid u r0.emailId, none)
        | some e =>
          (dbAfterUpdate now db rid u r0.emailId,
            some (e, (dbAfterUpdate now db rid u r0.emailId).recipients.filter
              (fun r => r.emailId == r0.emailId))) := by
  have hfold := foldl_applyUpd db rid (fieldStmts u now) (fieldStmts_preserve_id u now)
  unfold updateRecipient
  rw [if_neg (by simp), hfind]
  simp only [runStmts_all_ok, hfold, not_true, if_false]
  rfl

end Hedwig

namespace Hedwig

theorem wrap32_nat (n : Nat) (h : (n : Int) < 2 ^ 31) : wrap32 (n : Int) = (n : Int) := by
  unfold wrap32
  have e1 : (2 : Int) ^ 31 = 2147483648 := by norm_num
  have e2 : (2 : Int) ^ 32 = 4294967296 := by norm_num
  rw [e1] at h
  rw [e1, e2]
  omega

/-- Concrete database for the non-atomicity run: one email, one
unsent recipient. -/
def c3Db : Db :=
  { emails := [{ id := 1, hubId := 1, message := "m",
                 numSent := 0, numOpened := 0, numReplied := 0 }],
    recipients := [{ id := 10, emailId := 1, address := "a@x.com", name := none,
                     isSent := false, opened := false, replied := false,
                     reply := none, updatedAt := 0 }] }

/-- The classifier's reply update: all three flags plus the reply text. -/
def c3Upd : UpdateEmailRecipient :=
  { isSent := some true, opened := some true, replied := some true, reply := some "hi" }

/-- Oracle failing from the third statement on: the `email_id` `SELECT`
and the `is_sent` `UPDATE` succeed, the `opened` `UPDATE` fails. -/
def c3Ok : Nat → Bool := fun k => decide (k < 2)

/-- **C3, counterexample**: `update_recipient` is not atomic.  With the
`opened` statement failing after the `is_sent` statement succeeded, the
call returns an error yet the database differs from the original: the
recipient's `is_sent` is already `true` (with a refreshed
`updated_at`), and no counter was recomputed. -/
theorem update_recipient_not_atomic :
    (updateRecipient c3Ok 5 c3Db 10 c3Upd).2 = none
    ∧ (updateRecipient c3Ok 5 c3Db 10 c3Upd).1 ≠ c3Db
    ∧ (updateRecipient c3Ok 5 c3Db 10 c3Upd).1.recipients
        = [{ id := 10, emailId := 1, address := "a@x.com", name := none,
             isSent := true, opened := false, replied := false,
             reply := none, updatedAt := 5 }]
    ∧ (updateRecipient c3Ok 5 c3Db 10 c3Upd).1.emails = c3Db.emails := by
  refine ⟨by decide, by decide, by decide, by decide⟩

/-- **C3, amended**: `update_recipient` applies each provided field and
refreshes `updated_at`, then recomputes the parent email's counters,
but as a sequence of individual statements on one connection with no
wrapping transaction: when every statement succeeds the recipient rows
reflect all requested field updates, while a failure partway leaves the
effects of the earlier statements visible (no rollback) —
`create_email`, by contrast, runs inside a transaction. -/
theorem update_recipient_amended :
    (∀ (now : Int) (db : Db) (rid : Int) (u : UpdateEmailRecipient)
        (r0 : EmailRecipientRow),
      db.recipients.find? (fun r => r.id == rid) = some r0 →
      (updateRecipient (fun _ => true) now db rid u).1.recipients
        = db.recipients.map (fun r => if r.id == rid then applyFields u now r else r))
    ∧ ((updateRecipient c3Ok 5 c3Db 10 c3Upd).2 = none
      ∧ (updateRecipient c3Ok 5 c3Db 10 c3Upd).1 ≠ c3Db) := by
  refine ⟨?_, by decide, by decide⟩
  intro now db rid u r0 hfind
  rw [updateRecipient_ok_spec now db rid u r0 hfind]
  cases hfe : (dbAfterUpdate now db rid u r0.emailId).emails.find?
      (fun e => e.id == r0.emailId) with
  | none => simp [dbAfterUpdate, dbAfterFields]
  | some e => simp [dbAfterUpdate, dbAfterFields]

/-- Witness for `update_recipient_amended` on a concrete run. -/
theorem update_recipient_amended_witness :
    (updateRecipient (fun _ => true) 5 c3Db 10 c3Upd).1.recipients
      = c3Db.recipients.map (fun r => if r.id == 10 then applyFields c3Upd 5 r else r)
    ∧ (updateRecipient c3Ok 5 c3Db 10 c3Upd).2 = none :=
  ⟨update_recipient_amended.1 5 c3Db 10 c3Upd
      { id := 10, emailId := 1, address := "a@x.com", name := none,
        isSent := false, opened := false, replied := false,
        reply := none, updatedAt := 0 } (by decide),
   update_recipient_amended.2.1⟩

end Hedwig

namespace Hedwig

/-- **C4**: after every successful `create_email` or `update_recipient`,
the affected email row's counters equal the number of its recipient rows
with the corresponding flag set (for `create_email` under fresh primary
keys, i.e. no pre-existing recipient row references the new email id;
for `update_recipient` under fewer than `2^31` recipient rows, so the
`i64 → i32` cast of each `COUNT` is lossless). -/
theorem counter_equalities :
    (∀ (ok : Nat → Bool) (db : Db) (ne : NewEmailArg) (eid ridStart now : Int)
        (e : EmailRow) (recs : List EmailRecipientRow),
      (createEmail ok db ne eid ridStart now).2 = some (e, recs) →
      (∀ r ∈ db.recipients, r.emailId ≠ eid) →
      e.numSent = (((createEmail ok db ne eid ridStart now).1.recipients.filter
            (fun r => r.emailId == e.id && r.isSent)).length : Int)
      ∧ e.numOpened = (((createEmail ok db ne eid ridStart now).1.recipients.filter
            (fun r => r.emailId == e.id && r.opened)).length : Int)
      ∧ e.numReplied = (((createEmail ok db ne eid ridStart now).1.recipients.filter
            (fun r => r.emailId == e.id && r.replied)).length : Int))
    ∧ (∀ (now : Int) (db : Db) (rid : Int) (u : UpdateEmailRecipient)
        (e : EmailRow) (recs : List EmailRecipientRow),
      (updateRecipient (fun _ => true) now db rid u).2 = some (e, recs) →
      (db.recipients.length : Int) < 2 ^ 31 →
      e.numSent = (((updateRecipient (fun _ => true) now db rid u).1.recipients.filter
            (fun r => r.emailId == e.id && r.isSent)).length : Int)
      ∧ e.numOpened = (((updateRecipient (fun _ => true) now db rid u).1.recipients.filter
            (fun r => r.emailId == e.id && r.opened)).length : Int)
      ∧ e.numReplied = (((updateRecipient (fun _ => true) now db rid u).1.recipients.filter
            (fun r => r.emailId == e.id && r.replied)).length : Int)) := by
  constructor
  · intro ok db ne eid ridStart now e recs h hfresh
    unfold createEmail at h
    split_ifs at h with hok
    · simp only [Option.some.injEq, Prod.mk.injEq] at h
      obtain ⟨he, -⟩ := h
      subst he
      have hnew : ∀ r ∈ crRecRows ne eid ridStart now,
          r.isSent = false ∧ r.opened = false ∧ r.replied = false := by
        intro r hr
        unfold crRecRows at hr
        simp only [List.mem_map] at hr
        obtain ⟨p, -, rfl⟩ := hr
        exact ⟨rfl, rfl, rfl⟩
      have hrec : (createEmail ok db ne eid ridStart now).1.recipients
          = db.recipients ++ crRecRows ne eid ridStart now := by
        unfold createEmail
        rw [if_neg (not_not_intro hok)]
      have hfil : ∀ (p : EmailRecipientRow → Bool),
          (∀ r ∈ crRecRows ne eid ridStart now, p r = false) →
          ((db.recipients ++ crRecRows ne eid ridStart now).filter
            (fun r => r.emailId == (crEmailRow ne eid).id && p r)).length = 0 := by
        intro p hp
        rw [List.filter_append]
        have h1 : db.recipients.filter
            (fun r => r.emailId == (crEmailRow ne eid).id && p r) = [] := by
          rw [List.filter_eq_nil_iff]
          intro r hr
          have hb : (r.emailId == eid) = false := beq_eq_false_iff_ne.mpr (hfresh r hr)
          simp [crEmailRow, hb]
        have h2 : (crRecRows ne eid ridStart now).filter
            (fun r => r.emailId == (crEmailRow ne eid).id && p r) = [] := by
          rw [List.filter_eq_nil_iff]
          intro r hr
          simp [hp r hr]
        rw [h1, h2]
        rfl
      rw [hrec]
      refine ⟨?_, ?_, ?_⟩
      · rw [hfil (fun r => r.isSent) (fun r hr => (hnew r hr).1)]
        simp [crEmailRow]
      · rw [hfil (fun r => r.opened) (fun r hr => (hnew r hr).2.1)]
        simp [crEmailRow]
      · rw [hfil (fun r => r.replied) (fun r hr => (hnew r hr).2.2)]
        simp [crEmailRow]
  · intro now db rid u e recs h hlen
    cases hf : db.recipients.find? (fun r => r.id == rid) with
    | none =>
      rw [updateRecipient, if_neg (by simp), hf] at h
      simp at h
    | some r0 =>
      rw [updateRecipient_ok_spec now db rid u r0 hf] at h
      cases hfe : (dbAfterUpdate now db rid u r0.emailId).emails.find?
          (fun x => x.id == r0.emailId) with
      | none =>
        rw [hfe] at h
        simp at h
      | some e' =>
        rw [hfe] at h
        simp only [Option.some.injEq, Prod.mk.injEq] at h
        obtain ⟨he, -⟩ := h
        subst he
        have hfe' : ((dbAfterFields now db rid u).emails.map (fun x =>
            if x.id == r0.emailId then
              { x with
                numSent := countTrue (dbAfterFields now db rid u) r0.emailId
                  (fun r => r.isSent),
                numOpened := countTrue (dbAfterFields now db rid u) r0.emailId
                  (fun r => r.opened),
                numReplied := countTrue (dbAfterFields now db rid u) r0.emailId
                  (fun r => r.replied) }
            else x)).find? (fun x => x.id == r0.emailId) = some e' := hfe
        rw [List.find?_map] at hfe'
        obtain ⟨a, ha, hga⟩ := Option.map_eq_some'.mp hfe'
        have hpa := List.find?_some ha
        simp only [Function.comp_apply] at hpa
        by_cases haid : (a.id == r0.emailId) = true
        · rw [if_pos haid] at hga
          have heid : e'.id = r0.emailId := by
            rw [← hga]
            exact beq_iff_eq.mp haid
          have hns : e'.numSent
              = countTrue (dbAfterFields now db rid u) r0.emailId (fun r => r.isSent) := by
            rw [← hga]
          have hno : e'.numOpened
              = countTrue (dbAfterFields now db rid u) r0.emailId (fun r => r.opened) := by
            rw [← hga]
          have hnr : e'.numReplied
              = countTrue (dbAfterFields now db rid u) r0.emailId (fun r => r.replied) := by
            rw [← hga]
          have hrec : (updateRecipient (fun _ => true) now db rid u).1.recipients
              = (dbAfterFields now db rid u).recipients := by
            rw [updateRecipient_ok_spec now db rid u r0 hf, hfe]
            rfl
          have hbound : ∀ (p : EmailRecipientRow → Bool),
              ((((dbAfterFields now db rid u).recipients.filter p).length : Nat) : Int)
                < 2 ^ 31 := by
            intro p
            have h1 : ((dbAfterFields now db rid u).recipients.filter p).length
                ≤ db.recipients.length := by
              have h2 := List.length_filter_le p (dbAfterFields now db rid u).recipients
              have h3 : (dbAfterFields now db rid u).recipients.length
                  = db.recipients.length := by
                simp [dbAfterFields]
              omega
            have h4 : ((((dbAfterFields now db rid u).recipients.filter p).length : Nat) : Int)
                ≤ ((db.recipients.length : Nat) : Int) := by exact_mod_cast h1
            exact lt_of_le_of_lt h4 hlen
          rw [hrec, heid, hns, hno, hnr]
          refine ⟨?_, ?_, ?_⟩ <;>
            · simp only [countTrue]
              rw [wrap32_nat _ (hbound _)]
        · rw [if_neg haid] at hpa
          exact absurd hpa haid

end Hedwig

namespace Hedwig

def c4Ne : NewEmailArg := ⟨1, "hello", [⟨"to@example.com", some "Alice"⟩]⟩

def c4E : EmailRow := ⟨1, 1, "hello", 0, 0, 0⟩

def c4Recs : List EmailRecipientRow :=
  [⟨1, 1, "to@example.com", some "Alice", false, false, false, none, 0⟩]

def c4UpdE : EmailRow := ⟨1, 1, "m", 1, 1, 1⟩

def c4UpdRecs : List EmailRecipientRow :=
  [⟨10, 1, "a@x.com", none, true, true, true, some "hi", 5⟩]

/-- Witness for `counter_equalities` on concrete runs. -/
theorem counter_equalities_witness :
    (c4E.numSent = (((createEmail (fun _ => true) ⟨[], []⟩ c4Ne 1 1 0).1.recipients.filter
          (fun r => r.emailId == c4E.id && r.isSent)).length : Int)
      ∧ c4E.numOpened = (((createEmail (fun _ => true) ⟨[], []⟩ c4Ne 1 1 0).1.recipients.filter
          (fun r => r.emailId == c4E.id && r.opened)).length : Int)
      ∧ c4E.numReplied = (((createEmail (fun _ => true) ⟨[], []⟩ c4Ne 1 1 0).1.recipients.filter
          (fun r => r.emailId == c4E.id && r.replied)).length : Int))
    ∧ (c4UpdE.numSent = (((updateRecipient (fun _ => true) 5 c3Db 10 c3Upd).1.recipients.filter
          (fun r => r.emailId == c4UpdE.id && r.isSent)).length : Int)
      ∧ c4UpdE.numOpened = (((updateRecipient (fun _ => true) 5 c3Db 10 c3Upd).1.recipients.filter
          (fun r => r.emailId == c4UpdE.id && r.opened)).length : Int)
      ∧ c4UpdE.numReplied = (((updateRecipient (fun _ => true) 5 c3Db 10 c3Upd).1.recipients.filter
          (fun r => r.emailId == c4UpdE.id && r.replied)).length : Int)) :=
  ⟨counter_equalities.1 (fun _ => true) ⟨[], []⟩ c4Ne 1 1 0 c4E c4Recs (by decide) (by decide),
   counter_equalities.2 5 c3Db 10 c3Upd c4UpdE c4UpdRecs (by decide) (by decide)⟩

end Hedwig

namespace Hedwig

/-! ## Message classifier (`process_new_message`, service.rs:104-201)

Modelled after the fetch and parse succeeded: the input is the
`ParsedEmail` and the function returns the list of repository/bus
actions it performs, in order.  `lookup` is
`repo.get_email_recipient_by_id` for this hub (found row, `Ok(None)`,
or `Err`); `replyValid` is the external
`EmailRecipientReply::try_from` validation (an invalid reply is dropped
with a warning, the update still happens). -/

/-- `ParsedEmail` (parser.rs:8-14). -/
structure ParsedEmail where
  subject : Option String
  senderEmail : Option String
  recipientId : Option Int
  reply : Option String
  bounceRecipient : Option String
  deriving Repr, DecidableEq

/-- Outcome of `repo.get_email_recipient_by_id(id, hub_id)`. -/
inductive LookupRes where
  | found (r : EmailRecipientRow)
  | notFound
  | repoError
  deriving Repr, DecidableEq

/-- Observable side effects of the classifier, in issue order. -/
inductive SvcAction where
  | unsubscribeRecipient (hubId : Int) (email : String) (reason : Option String)
  | publishUnsubscribe (hubId : Int) (email : String) (reason : Option String)
  | updateRecipient (rid : Int) (upd : UpdateEmailRecipient)
  | publishReply (hubId : Int) (email : String) (message : String) (subject : Option String)
  deriving Repr, DecidableEq

/-- Rust `u8::to_ascii_lowercase` on a char (`A`-`Z` get `+32`). -/
def asciiLower (c : Char) : Char :=
  if 'A' ≤ c ∧ c ≤ 'Z' then Char.ofNat (c.toNat + 32) else c

/-- Rust `str::eq_ignore_ascii_case`. -/
def eqIgnoreAsciiCase (a b : String) : Bool :=
  a.toList.map asciiLower == b.toList.map asciiLower

/-- Modelled from the spec: `EmailRecipientId` (external
`pushkind_emailer::domain::types`) is the typed identifier of an
`email_recipients` row — a SQLite primary key, hence positive — and
`EmailRecipientId::try_from(i32)` rejects values outside that range
(the `Err` branch at service.rs:160-171 logs and returns). -/
def EmailRecipientId.tryFrom (n : Int) : Option Int :=
  if 0 < n then some n else none

/-- `send_unsubscribe_message` (service.rs:20-46): persist the
unsubscribe (errors only logged), then publish `ZMQUnsubscribeMessage`. -/
def sendUnsubscribeMessage (hubId : Int) (email : String) (reason : Option String) :
    List SvcAction :=
  [.unsubscribeRecipient hubId email reason, .publishUnsubscribe hubId email reason]

/-- `process_reply` (service.rs:72-102): drop an invalid reply, then
`update_recipient` with all three flags true. -/
def processReplyActions (replyValid : String → Bool) (r : EmailRecipientRow)
    (reply : Option String) : List SvcAction :=
  [.updateRecipient r.id
    { isSent := some true, opened := some true, replied := some true,
      reply := reply.bind (fun s => if replyValid s then some s else none) }]

/-- The tail of `process_new_message` (service.rs:158-200): the
recipient-id block followed by the reply publish. -/
def replyTail (replyValid : String → Bool) (lookup : Int → LookupRes) (hubId : Int)
    (parsed : ParsedEmail) : List SvcAction :=
  let replyPart : List SvcAction :=
    match parsed.senderEmail with
    | some email =>
      [.publishReply hubId email (parsed.reply.getD "") parsed.subject]
    | none => []
  match parsed.recipientId with
  | some rid =>
    match EmailRecipientId.tryFrom rid with
    | none => []  -- warn and return: nothing is published
    | some rid' =>
      match lookup rid' with
      | .found r => processReplyActions replyValid r parsed.reply ++ replyPart
      | .notFound => replyPart
      | .repoError => replyPart
  | none => replyPart

/-- `process_new_message` after fetch and parse (service.rs:125-200). -/
def processNewMessage (replyValid : String → Bool) (lookup : Int → LookupRes)
    (hubId : Int) (parsed : ParsedEmail) : List SvcAction :=
  match parsed.subject with
  | some subject =>
    if eqIgnoreAsciiCase subject "unsubscribe" then
      match parsed.senderEmail with
      | some email => sendUnsubscribeMessage hubId email (some subject)
      | none => replyTail replyValid lookup hubId parsed
    else if eqIgnoreAsciiCase subject "Undelivered Mail Returned to Sender" then
      match parsed.bounceRecipient with
      | some email => sendUnsubscribeMessage hubId email (some subject)
      | none => replyTail replyValid lookup hubId parsed
    else replyTail replyValid lookup hubId parsed
  | none => replyTail replyValid lookup hubId parsed

end Hedwig

namespace Hedwig

theorem eqIgnore_length {a b : String} (h : eqIgnoreAsciiCase a b = true) :
    a.toList.length = b.toList.length := by
  unfold eqIgnoreAsciiCase at h
  have heq : a.toList.map asciiLower = b.toList.map asciiLower := by simpa using h
  have hlen := congrArg List.length heq
  simpa using hlen

/-- **C6**: classification precedence.  A subject equal to
"unsubscribe" (ASCII case-insensitively) with a sender present runs
exactly the unsubscribe path — persist the unsubscribe, publish
`ZMQUnsubscribeMessage{hub_id, email, reason := subject}` — and returns
with no recipient update; otherwise a subject equal to "Undelivered
Mail Returned to Sender" (case-insensitively) with a bounce recipient
present takes the same path with the bounced address (the two subjects
have different lengths, so the first branch cannot also fire). -/
theorem classifier_precedence (replyValid : String → Bool) (lookup : Int → LookupRes)
    (hubId : Int) (parsed : ParsedEmail) (subject : String) :
    (parsed.subject = some subject →
      eqIgnoreAsciiCase subject "unsubscribe" = true →
      ∀ email, parsed.senderEmail = some email →
      processNewMessage replyValid lookup hubId parsed
        = [.unsubscribeRecipient hubId email (some subject),
           .publishUnsubscribe hubId email (some subject)]
      ∧ (∀ rid upd, SvcAction.updateRecipient rid upd
            ∉ processNewMessage replyValid lookup hubId parsed))
    ∧ (parsed.subject = some subject →
      eqIgnoreAsciiCase subject "Undelivered Mail Returned to Sender" = true →
      ∀ email, parsed.bounceRecipient = some email →
      processNewMessage replyValid lookup hubId parsed
        = [.unsubscribeRecipient hubId email (some subject),
           .publishUnsubscribe hubId email (some subject)]
      ∧ (∀ rid upd, SvcAction.updateRecipient rid upd
            ∉ processNewMessage replyValid lookup hubId parsed)) := by
  obtain ⟨subj, send, prid, prep, bounce⟩ := parsed
  constructor
  · rintro rfl hci email rfl
    have heq : processNewMessage replyValid lookup hubId
        ⟨some subject, some email, prid, prep, bounce⟩
        = [.unsubscribeRecipient hubId email (some subject),
           .publishUnsubscribe hubId email (some subject)] := by
      simp only [processNewMessage, hci, if_true, sendUnsubscribeMessage]
    refine ⟨heq, ?_⟩
    intro rid upd
    rw [heq]
    simp
  · rintro rfl hci email rfl
    have hlen1 := eqIgnore_length hci
    have hne : eqIgnoreAsciiCase subject "unsubscribe" = false := by
      cases h : eqIgnoreAsciiCase subject "unsubscribe" with
      | false => rfl
      | true =>
        have hlen2 := eqIgnore_length h
        have e1 : ("Undelivered Mail Returned to Sender".toList).length = 35 := by decide
        have e2 : ("unsubscribe".toList).length = 11 := by decide
        omega
    have heq : processNewMessage replyValid lookup hubId
        ⟨some subject, send, prid, prep, some email⟩
        = [.unsubscribeRecipient hubId email (some subject),
           .publishUnsubscribe hubId email (some subject)] := by
      simp only [processNewMessage, hne, hci, Bool.false_eq_true, if_false, if_true,
        sendUnsubscribeMessage]
    refine ⟨heq, ?_⟩
    intro rid upd
    rw [heq]
    simp

/-- Witness for `classifier_precedence` on concrete parses. -/
theorem classifier_precedence_witness :
    processNewMessage (fun _ => true) (fun _ => LookupRes.notFound) 1
        ⟨some "UNSUBSCRIBE", some "a@x.com", none, none, none⟩
      = [.unsubscribeRecipient 1 "a@x.com" (some "UNSUBSCRIBE"),
         .publishUnsubscribe 1 "a@x.com" (some "UNSUBSCRIBE")]
    ∧ processNewMessage (fun _ => true) (fun _ => LookupRes.notFound) 1
        ⟨some "Undelivered Mail Returned to Sender", some "m@d.com", none, none,
          some "bounced@example.com"⟩
      = [.unsubscribeRecipient 1 "bounced@example.com"
           (some "Undelivered Mail Returned to Sender"),
         .publishUnsubscribe 1 "bounced@example.com"
           (some "Undelivered Mail Returned to Sender")] :=
  ⟨((classifier_precedence (fun _ => true) (fun _ => LookupRes.notFound) 1
      ⟨some "UNSUBSCRIBE", some "a@x.com", none, none, none⟩ "UNSUBSCRIBE").1
      rfl (by decide) "a@x.com" rfl).1,
   ((classifier_precedence (fun _ => true) (fun _ => LookupRes.notFound) 1
      ⟨some "Undelivered Mail Returned to Sender", some "m@d.com", none, none,
        some "bounced@example.com"⟩ "Undelivered Mail Returned to Sender").2
      rfl (by decide) "bounced@example.com" rfl).1⟩

end Hedwig

namespace Hedwig

/-- **C10, counterexample**: the claim says the reply message is
published for every non-unsubscribe, non-bounce parse with a sender
present.  When the `In-Reply-To` id parses but fails
`EmailRecipientId::try_from` (here `-5`, reachable from the header
`<-5@domain>`), `process_new_message` returns early
(service.rs:160-171) and publishes nothing, despite the sender being
present. -/
theorem reply_publish_counterexample :
    processNewMessage (fun _ => true) (fun _ => LookupRes.notFound) 1
        ⟨none, some "a@x.com", some (-5), some "hi", none⟩ = []
    ∧ (⟨none, some "a@x.com", some (-5), some "hi", none⟩ : ParsedEmail).senderEmail
        = some "a@x.com" := by
  constructor
  · decide
  · rfl

/-- **C10, amended**: for every successfully parsed message not routed
to the unsubscribe or bounce path, with a sender present the
`ZMQReplyMessage{hub_id, email := sender, message := reply or "",
subject}` is published whenever the `In-Reply-To` recipient id is
absent, or present, positive and looked up (found, not found, or a
repository error); the recipient update (all three flags true, with the
validated reply) happens exactly when the id resolves to a row of the
hub; but an id that fails `EmailRecipientId` validation (non-positive)
makes the function return early with nothing published. -/
theorem reply_publish_amended (replyValid : String → Bool) (lookup : Int → LookupRes)
    (hubId : Int) (parsed : ParsedEmail) (email : String)
    (hno : ∀ s, parsed.subject = some s →
        eqIgnoreAsciiCase s "unsubscribe" = false
        ∧ eqIgnoreAsciiCase s "Undelivered Mail Returned to Sender" = false) :
    (parsed.senderEmail = some email → parsed.recipientId = none →
      processNewMessage replyValid lookup hubId parsed
        = [.publishReply hubId email (parsed.reply.getD "") parsed.subject])
    ∧ (∀ rid, parsed.senderEmail = some email → parsed.recipientId = some rid →
        0 < rid → (lookup rid = .notFound ∨ lookup rid = .repoError) →
        processNewMessage replyValid lookup hubId parsed
          = [.publishReply hubId email (parsed.reply.getD "") parsed.subject])
    ∧ (∀ rid r, parsed.senderEmail = some email → parsed.recipientId = some rid →
        0 < rid → lookup rid = .found r →
        processNewMessage replyValid lookup hubId parsed
          = [.updateRecipient r.id
              { isSent := some true, opened := some true, replied := some true,
                reply := parsed.reply.bind (fun s => if replyValid s then some s else none) },
             .publishReply hubId email (parsed.reply.getD "") parsed.subject])
    ∧ (∀ rid, parsed.recipientId = some rid → rid ≤ 0 →
        processNewMessage replyValid lookup hubId parsed = []) := by
  have hmain : processNewMessage replyValid lookup hubId parsed
      = replyTail replyValid lookup hubId parsed := by
    obtain ⟨subj, send, prid, prep, bounce⟩ := parsed
    cases subj with
    | none => rfl
    | some s =>
      obtain ⟨h1, h2⟩ := hno s rfl
      simp only [processNewMessage, h1, h2, Bool.false_eq_true, if_false]
  obtain ⟨subj, send, prid, prep, bounce⟩ := parsed
  refine ⟨?_, ?_, ?_, ?_⟩
  · rintro rfl rfl
    rw [hmain]
    simp [replyTail]
  · rintro rid rfl rfl hpos hlk
    rw [hmain]
    have htf : EmailRecipientId.tryFrom rid = some rid := by
      unfold EmailRecipientId.tryFrom
      rw [if_pos hpos]
    rcases hlk with h | h <;> simp [replyTail, htf, h]
  · rintro rid r rfl rfl hpos hlk
    rw [hmain]
    have htf : EmailRecipientId.tryFrom rid = some rid := by
      unfold EmailRecipientId.tryFrom
      rw [if_pos hpos]
    simp [replyTail, htf, hlk, processReplyActions]
  · rintro rid rfl hneg
    rw [hmain]
    have htf : EmailRecipientId.tryFrom rid = none := by
      unfold EmailRecipientId.tryFrom
      rw [if_neg (by omega)]
    simp [replyTail, htf]

/-- Witness for `reply_publish_amended` on a concrete parse. -/
theorem reply_publish_amended_witness :
    processNewMessage (fun _ => true) (fun _ => LookupRes.notFound) 1
        ⟨some "Re: Hello", some "a@x.com", none, some "Thanks!", none⟩
      = [.publishReply 1 "a@x.com" "Thanks!" (some "Re: Hello")]
    ∧ processNewMessage (fun _ => true) (fun _ => LookupRes.notFound) 1
        ⟨some "Re: Hello", some "a@x.com", some 42, some "Thanks!", none⟩
      = [.publishReply 1 "a@x.com" "Thanks!" (some "Re: Hello")] :=
  ⟨(reply_publish_amended (fun _ => true) (fun _ => LookupRes.notFound) 1
      ⟨some "Re: Hello", some "a@x.com", none, some "Thanks!", none⟩ "a@x.com"
      (by rintro s hs; cases hs; exact ⟨by decide, by decide⟩)).1 rfl rfl,
   (reply_publish_amended (fun _ => true) (fun _ => LookupRes.notFound) 1
      ⟨some "Re: Hello", some "a@x.com", some 42, some "Thanks!", none⟩ "a@x.com"
      (by rintro s hs; cases hs; exact ⟨by decide, by decide⟩)).2.1 42 rfl rfl
      (by decide) (Or.inl rfl)⟩

end Hedwig

namespace Hedwig

/-! ## Message builder (`src/send_email/message_builder.rs`)

`fill_template` replaces `{key}` tokens (regex `\{([\p{L}\p{N}_]+?)\}`)
with values from the map, leaving unknown tokens literal; replacements
are not re-scanned.  The token class is modelled with
`Char.isAlphanum`/underscore, which coincides with `\p{L}\p{N}_` on the
ASCII inputs of the verified scenario.  `hub.unsubscribe_url()` lives
in the external `pushkind_emailer` crate, so the URL is a parameter. -/

/-- One character of the `\{([\p{L}\p{N}_]+?)\}` token class. -/
def isTokenChar (c : Char) : Bool :=
  c.isAlphanum || c = '_'

/-- At a position right after `{`: the token name and the remainder
after the closing `}`, when the regex matches here. -/
def tokenSplit (l : List Char) : Option (List Char × List Char) :=
  let run := l.takeWhile isTokenChar
  if run.isEmpty then none
  else match l.drop run.length with
       | '}' :: rest => some (run, rest)
       | _ => none

/-- `HashMap::get` on the variable map (keys are distinct, so
association-list lookup agrees with the hash map). -/
def lookupVar (vars : List (List Char × List Char)) (name : List Char) : Option (List Char) :=
  match vars with
  | [] => none
  | (k, v) :: rest => if k = name then some v else lookupVar rest name

/-- The scan of `Regex::replace_all`: at each position try to match a
`{token}`; on a match emit the mapped value (or the token literally when
unknown) and continue after it; otherwise emit the character.  Fuel is
the remaining input length (each step consumes at least one character),
keeping the recursion structural. -/
def fillTemplateGo (vars : List (List Char × List Char)) : Nat → List Char → List Char
  | 0, l => l
  | _ + 1, [] => []
  | fuel + 1, c :: rest =>
    if c = '{' then
      match tokenSplit rest with
      | some (name, rest') =>
        (match lookupVar vars name with
         | some v => v
         | none => '{' :: (name ++ ['}'])) ++ fillTemplateGo vars fuel rest'
      | none => '{' :: fillTemplateGo vars fuel rest
    else c :: fillTemplateGo vars fuel rest

/-- `fill_template` (message_builder.rs:14-23). -/
def fillTemplate (vars : List (List Char × List Char)) (l : List Char) : List Char :=
  fillTemplateGo vars l.length l

/-- Rust `str::contains` for a literal pattern. -/
def containsSubstr (l pat : List Char) : Bool :=
  l.tails.any (fun t => pat.isPrefixOf t)

/-- Hub fields consumed by `build_message`. -/
structure HubIn where
  sender : Option (List Char)
  login : Option (List Char)
  emailTemplate : Option (List Char)
  deriving Repr, DecidableEq

/-- Email fields consumed by `build_message`. -/
structure EmailIn where
  message : List Char
  subject : Option (List Char)
  attachment : Option (List Char)
  attachmentName : Option (List Char)
  attachmentMime : Option (List Char)
  deriving Repr, DecidableEq

/-- Recipient fields consumed by `build_message`. -/
structure RecipientIn where
  id : Nat
  address : List Char
  name : List Char
  fields : List (List Char × List Char)
  deriving Repr, DecidableEq

/-- The message assembled by `build_message` (both the `text/plain` and
`text/html` parts carry `body`; the mail library wraps `messageId` in
angle brackets when serializing the `Message-ID` header). -/
structure BuiltMessage where
  fromSender : List Char
  fromLogin : List Char
  toAddress : List Char
  subject : List Char
  body : List Char
  messageId : List Char
  listUnsubscribe : List Char
  attachment : Option (List Char × List Char × List Char)
  deriving Repr, DecidableEq

/-- `build_message` (message_builder.rs:30-111). -/
def buildMessage (hub : HubIn) (email : EmailIn) (recipient : RecipientIn)
    (domain : List Char) (unsubscribeUrl : List Char) : BuiltMessage :=
  let rendered := fillTemplate recipient.fields email.message
  let template := hub.emailTemplate.getD "{message}".toList
  let template := if containsSubstr template "{message}".toList then template
                  else template ++ "\n\n{message}".toList
  let fields := [("name".toList, recipient.name),
                 ("unsubscribe_url".toList, unsubscribeUrl),
                 ("message".toList, rendered)]
  let body := fillTemplate fields template
  let body := body
      ++ ("<img height=\"1\" width=\"1\" border=\"0\" src=\"https://mail.".toList
          ++ domain ++ "/track/".toList ++ natChars recipient.id ++ "\">".toList)
  { fromSender := hub.sender.getD [],
    fromLogin := hub.login.getD [],
    toAddress := recipient.address,
    subject := email.subject.getD [],
    body := body,
    messageId := natChars recipient.id ++ '@' :: domain,
    listUnsubscribe := unsubscribeUrl,
    attachment :=
      match email.attachmentMime, email.attachmentName, email.attachment with
      | some mime, some nm, some content =>
        if nm ≠ [] ∧ content ≠ [] then some (mime, nm, content) else none
      | _, _, _ => none }

end Hedwig

namespace Hedwig

theorem containsSubstr_spec (l pat : List Char) :
    containsSubstr l pat = true ↔ pat <:+: l := by
  rw [containsSubstr, List.any_eq_true]
  constructor
  · rintro ⟨t, ht, hp⟩
    rw [List.mem_tails] at ht
    rw [List.isPrefixOf_iff_prefix] at hp
    exact List.infix_iff_prefix_suffix.mpr ⟨t, hp, ht⟩
  · intro h
    obtain ⟨t, hp, ht⟩ := List.infix_iff_prefix_suffix.mp h
    exact ⟨t, (List.mem_tails _ _).mpr ht, List.isPrefixOf_iff_prefix.mpr hp⟩

theorem containsSubstr_append_left (A B pat : List Char)
    (h : containsSubstr A pat = true) : containsSubstr (A ++ B) pat = true := by
  rw [containsSubstr_spec] at h ⊢
  exact h.trans (List.prefix_append A B).isInfix

theorem containsSubstr_append_right (A B pat : List Char)
    (h : containsSubstr B pat = true) : containsSubstr (A ++ B) pat = true := by
  rw [containsSubstr_spec] at h ⊢
  exact h.trans (List.suffix_append A B).isInfix

theorem natChars_one : natChars 1 = ['1'] := by
  unfold natChars
  rw [if_neg (by norm_num)]
  rw [Nat.digits_def' (by norm_num : (1 : Nat) < 10) (by norm_num)]
  norm_num
  decide

def c8Hub : HubIn :=
  { sender := some "s@example.com".toList, login := some "s@example.com".toList,
    emailTemplate := some "Hi {name}! {message} Unsubscribe: {unsubscribe_url}".toList }

def c8Email : EmailIn :=
  { message := "Hello {favorite_color}, fruit {unknown}".toList,
    subject := some "Subject".toList,
    attachment := none, attachmentName := none, attachmentMime := none }

def c8Recipient : RecipientIn :=
  { id := 1, address := "to@example.com".toList, name := "Alice".toList,
    fields := [("favorite_color".toList, "blue".toList)] }

/-- **C8**: the two-pass rendering scenario.  With hub template
`"Hi {name}! {message} Unsubscribe: {unsubscribe_url}"`, message
`"Hello {favorite_color}, fruit {unknown}"`, recipient `"Alice"` with
`favorite_color = blue` and domain `example.com`, the body contains
`"Hi Alice! Hello blue, fruit {unknown}"` (the unknown token is left
literal by the inner pass and the outer pass substitutes from a fresh
map), the body carries the tracking pixel with `track/1`, and the
`Message-ID` value is `1@example.com` — for every value of the hub's
unsubscribe URL. -/
theorem builder_scenario (url : List Char) :
    containsSubstr (buildMessage c8Hub c8Email c8Recipient "example.com".toList url).body
      "Hi Alice! Hello blue, fruit {unknown}".toList = true
    ∧ containsSubstr (buildMessage c8Hub c8Email c8Recipient "example.com".toList url).body
      "track/1".toList = true
    ∧ (buildMessage c8Hub c8Email c8Recipient "example.com".toList url).messageId
      = "1@example.com".toList := by
  have hbody : (buildMessage c8Hub c8Email c8Recipient "example.com".toList url).body
      = "Hi Alice! Hello blue, fruit {unknown} Unsubscribe: ".toList
        ++ (url
        ++ "<img height=\"1\" width=\"1\" border=\"0\" src=\"https://mail.example.com/track/1\">".toList) := by
    simp +decide [buildMessage, c8Hub, c8Email, c8Recipient, fillTemplate, fillTemplateGo,
      tokenSplit, lookupVar, containsSubstr, natChars_one]
  refine ⟨?_, ?_, ?_⟩
  · rw [hbody]
    exact containsSubstr_append_left _ _ _ (by decide)
  · rw [hbody]
    apply containsSubstr_append_right
    apply containsSubstr_append_right
    decide
  · simp only [buildMessage, c8Recipient]
    rw [natChars_one]
    decide

end Hedwig

namespace Hedwig

/-! ## Reply cleaning (`extract_reply_text`, parser.rs:222-279)

The same routine appears as `extract_plain_reply` in
src/bin/check_reply.rs:26-91 (after an HTML-stripping step that is
delegated to the external `html2text`).  Whitespace & lowercasing are
modelled at the ASCII level (`Char.isWhitespace`, `Char.toLower`);
every statement proved is insensitive to the exact per-character
tables, and all concrete inputs are ASCII. -/

/-- Rust `str::trim`. -/
def trimWs (l : List Char) : List Char :=
  ((l.dropWhile Char.isWhitespace).reverse.dropWhile Char.isWhitespace).reverse

/-- Rust `str::lines`: split on `\n`; a final line ending is optional
(the trailing empty piece produced by a terminal newline is dropped). -/
def rustLines (l : List Char) : List (List Char) :=
  let p := l.splitOn '\n'
  if p.getLast? = some [] then p.dropLast else p

/-- `lower.starts_with("on ") && lower.ends_with(" wrote:")`. -/
def isGmailSep (lower : List Char) : Bool :=
  "on ".toList.isPrefixOf lower && " wrote:".toList.reverse.isPrefixOf lower.reverse

/-- The localized "original message" markers, matched by substring. -/
def isOriginalMsg (lower : List Char) : Bool :=
  containsSubstr lower "original message".toList
  || containsSubstr lower "пересылаемое сообщение".toList
  || containsSubstr lower "исходное сообщение".toList

/-- The quoted-header prefixes (English and Russian). -/
def isHeaderBlock (lower : List Char) : Bool :=
  "from:".toList.isPrefixOf lower || "от кого:".toList.isPrefixOf lower
  || "subject:".toList.isPrefixOf lower || "тема:".toList.isPrefixOf lower
  || "to:".toList.isPrefixOf lower || "кому:".toList.isPrefixOf lower
  || "date:".toList.isPrefixOf lower || "дата:".toList.isPrefixOf lower

/-- The line scan of `extract_reply_text` (parser.rs:226-259).
`started` tracks `!result_lines.is_empty()` (blanks are only kept after
content, and only content pushes switch it on). -/
def scanLines (started : Bool) : List (List Char) → List (List Char)
  | [] => []
  | line :: rest =>
    let t := trimWs line
    if t = [] then
      if started then [] :: scanLines started rest else scanLines started rest
    else
      if isGmailSep (t.map Char.toLower) || isOriginalMsg (t.map Char.toLower) then []
      else if isHeaderBlock (t.map Char.toLower) && started then []
      else if List.isPrefixOf ['>'] t then scanLines started rest
      else t :: scanLines true rest

/-- Rust `str::split("\n\n")`: leftmost non-overlapping matches of the
two-character separator. -/
def splitNN : List Char → List (List Char)
  | [] => [[]]
  | '\n' :: '\n' :: rest => [] :: splitNN rest
  | c :: rest =>
    match splitNN rest with
    | [] => [[c]]
    | h :: t => (c :: h) :: t

/-- The fallback of `extract_reply_text` (parser.rs:264-277): the first
paragraph with non-empty content after dropping `>`-quoted lines. -/
def fallbackParas : List (List Char) → List Char
  | [] => []
  | para :: rest =>
    let p := trimWs (List.intercalate ['\n']
        ((rustLines para).filter (fun l => !(List.isPrefixOf ['>'] (trimWs l)))))
    if p = [] then fallbackParas rest else p

/-- The reply produced by the main line scan (before the fallback). -/
def mainReply (input : List Char) : List Char :=
  trimWs (List.intercalate ['\n']
    (scanLines false (rustLines (input.filter (fun c => c ≠ '\r')))))

/-- `extract_reply_text` (parser.rs:222-279): the line scan's output,
or the first usable paragraph when the scan yielded nothing. -/
def extractReplyText (input : List Char) : List Char :=
  if mainReply input = [] then fallbackParas (splitNN (input.filter (fun c => c ≠ '\r')))
  else mainReply input

end Hedwig

namespace Hedwig

/-- **C9, counterexample**: reply cleaning is not idempotent.  On
`"> original message\nHello\n  World"` the scan stops at the quoted
marker line with nothing captured, and the fallback keeps the remaining
paragraph verbatim (`"Hello\n  World"`, interior indentation intact);
re-applying the extraction trims the second line to `"Hello\nWorld"`. -/
theorem extract_reply_not_idempotent :
    extractReplyText "> original message\nHello\n  World".toList
      = "Hello\n  World".toList
    ∧ extractReplyText (extractReplyText "> original message\nHello\n  World".toList)
      = "Hello\nWorld".toList
    ∧ extractReplyText (extractReplyText "> original message\nHello\n  World".toList)
      ≠ extractReplyText "> original message\nHello\n  World".toList := by
  refine ⟨by decide, by decide, by decide⟩

end Hedwig

namespace Hedwig

theorem headOk_dropWhile {α : Type} (p : α → Bool) (l : List α) :
    ∀ x ∈ (l.dropWhile p).head?, p x = false := by
  induction l with
  | nil => simp [List.dropWhile]
  | cons a t ih =>
    by_cases h : p a = true
    · simpa [List.dropWhile_cons, h] using ih
    · simp only [List.dropWhile_cons, if_neg h, List.head?_cons, Option.mem_def,
        Option.some.injEq]
      rintro x rfl
      exact Bool.eq_false_iff.mpr h

theorem dropWhile_eq_self_of_headOk {α : Type} {p : α → Bool} {l : List α}
    (h : ∀ x ∈ l.head?, p x = false) : l.dropWhile p = l := by
  cases l with
  | nil => rfl
  | cons a t =>
    have := h a (by simp)
    simp [List.dropWhile_cons, this]

theorem dropWhile_idem {α : Type} (p : α → Bool) (l : List α) :
    (l.dropWhile p).dropWhile p = l.dropWhile p :=
  dropWhile_eq_self_of_headOk (headOk_dropWhile p l)

theorem dropWhile_self_headOk {α : Type} {p : α → Bool} {l : List α}
    (h : l.dropWhile p = l) : ∀ x ∈ l.head?, p x = false := by
  rw [← h]
  exact headOk_dropWhile p l

theorem getLast?_append_right {α : Type} {s : List α} (t : List α) (hs : s ≠ []) :
    (t ++ s).getLast? = s.getLast? := by
  induction t with
  | nil => rfl
  | cons x t ih =>
    cases ht : t ++ s with
    | nil => exact absurd (List.append_eq_nil.mp ht).2 hs
    | cons y ys =>
      rw [List.cons_append, ht, List.getLast?_cons_cons, ← ht, ih]

theorem getLast?_suffix {α : Type} {s v : List α} (h : s <:+ v) (hs : s ≠ []) :
    s.getLast? = v.getLast? := by
  obtain ⟨t, rfl⟩ := h
  exact (getLast?_append_right t hs).symm

/-- The head and the reversed head of `trimWs l` carry no whitespace:
both `dropWhile` passes are fixpoints on the result. -/
theorem trimWs_parts (l : List Char) :
    (trimWs l).dropWhile Char.isWhitespace = trimWs l
    ∧ (trimWs l).reverse.dropWhile Char.isWhitespace = (trimWs l).reverse := by
  constructor
  · apply dropWhile_eq_self_of_headOk
    intro x hx
    by_cases hnil : trimWs l = []
    · rw [hnil] at hx
      simp at hx
    · unfold trimWs at hx hnil
      rw [List.head?_reverse] at hx
      have hXne : (l.dropWhile Char.isWhitespace).reverse.dropWhile Char.isWhitespace ≠ [] := by
        intro hc
        rw [hc] at hnil
        exact hnil rfl
      have hsuf := List.dropWhile_suffix (l := (l.dropWhile Char.isWhitespace).reverse)
        (p := Char.isWhitespace)
      rw [getLast?_suffix hsuf hXne, List.getLast?_reverse] at hx
      exact dropWhile_self_headOk (dropWhile_idem _ l) x hx
  · unfold trimWs
    rw [List.reverse_reverse]
    exact dropWhile_idem _ _

/-- `str::trim` is idempotent. -/
theorem trimWs_idem (l : List Char) : trimWs (trimWs l) = trimWs l := by
  obtain ⟨h1, h2⟩ := trimWs_parts l
  show (((trimWs l).dropWhile Char.isWhitespace).reverse.dropWhile Char.isWhitespace).reverse
      = trimWs l
  rw [h1, h2, List.reverse_reverse]

theorem mem_trimWs {x : Char} {l : List Char} (h : x ∈ trimWs l) : x ∈ l := by
  unfold trimWs at h
  rw [List.mem_reverse] at h
  have h2 := (List.dropWhile_suffix (p := Char.isWhitespace)).subset h
  rw [List.mem_reverse] at h2
  exact (List.dropWhile_suffix (p := Char.isWhitespace)).subset h2

end Hedwig

namespace Hedwig

theorem dropWhile_replicate_append (p : Char → Bool) (a : Char) (ha : p a = true)
    (k : Nat) (Y : List Char) :
    (List.replicate k a ++ Y).dropWhile p = Y.dropWhile p := by
  induction k with
  | zero => rfl
  | succ k ih => simp [List.replicate_succ, List.dropWhile_cons, ha, ih]

/-- Trimming a trimmed block followed by trailing newlines recovers the
block. -/
theorem trimWs_append_newlines (X : List Char) (k : Nat) (hne : X ≠ [])
    (hX : X.dropWhile Char.isWhitespace = X)
    (hXr : X.reverse.dropWhile Char.isWhitespace = X.reverse) :
    trimWs (X ++ List.replicate k '\n') = X := by
  unfold trimWs
  have h1 : (X ++ List.replicate k '\n').dropWhile Char.isWhitespace
      = X ++ List.replicate k '\n' := by
    cases hx : X with
    | nil => exact absurd hx hne
    | cons c t =>
      apply dropWhile_eq_self_of_headOk
      intro x hx2
      rw [hx] at hX
      have hh := dropWhile_self_headOk hX
      simp only [List.cons_append, List.head?_cons, Option.mem_def, Option.some.injEq] at hx2
      subst hx2
      exact hh c (by simp)
  rw [h1, List.reverse_append, List.reverse_replicate,
    dropWhile_replicate_append _ '\n' (by decide) k X.reverse, hXr, List.reverse_reverse]

/-- Every character of a `splitOnP` piece came from the input and fails
the separator predicate. -/
theorem splitOnP_piece_mem {α : Type} (p : α → Bool) (l : List α) :
    ∀ piece ∈ l.splitOnP p, ∀ ch ∈ piece, ch ∈ l ∧ p ch = false := by
  induction l with
  | nil =>
    intro piece hp ch hch
    rw [List.splitOnP_nil, List.mem_singleton] at hp
    subst hp
    simp at hch
  | cons x xs ih =>
    intro piece hp ch hch
    rw [List.splitOnP_cons] at hp
    by_cases hx : p x = true
    · rw [if_pos hx] at hp
      rcases List.mem_cons.mp hp with rfl | hp2
      · simp at hch
      · obtain ⟨h1, h2⟩ := ih piece hp2 ch hch
        exact ⟨List.mem_cons_of_mem _ h1, h2⟩
    · rw [if_neg hx] at hp
      cases hs : xs.splitOnP p with
      | nil => exact absurd hs (List.splitOnP_ne_nil _ xs)
      | cons hd t =>
        rw [hs, List.modifyHead_cons] at hp
        rcases List.mem_cons.mp hp with rfl | hp2
        · rcases List.mem_cons.mp hch with rfl | hch2
          · exact ⟨List.mem_cons_self _ _, Bool.eq_false_iff.mpr hx⟩
          · obtain ⟨h1, h2⟩ := ih hd (by rw [hs]; exact List.mem_cons_self _ _) ch hch2
            exact ⟨List.mem_cons_of_mem _ h1, h2⟩
        · obtain ⟨h1, h2⟩ := ih piece (by rw [hs]; exact List.mem_cons_of_mem _ hp2) ch hch
          exact ⟨List.mem_cons_of_mem _ h1, h2⟩

/-- Lines delivered by `rustLines` are `splitOn` pieces. -/
theorem rustLines_mem {z piece : List Char} (h : piece ∈ rustLines z) :
    piece ∈ z.splitOn '\n' := by
  simp only [rustLines] at h
  split at h
  · exact (List.dropLast_prefix _).subset h
  · exact h

/-- Characters of a `rustLines` line come from the input and are never a
newline. -/
theorem rustLines_chars {z piece : List Char} (h : piece ∈ rustLines z) :
    ∀ ch ∈ piece, ch ∈ z ∧ ch ≠ '\n' := by
  intro ch hch
  have h1 : piece ∈ z.splitOnP (fun c => c == '\n') := by
    have := rustLines_mem h
    unfold List.splitOn at this
    exact this
  have h2 := splitOnP_piece_mem (fun c => c == '\n') z piece h1 ch hch
  refine ⟨h2.1, ?_⟩
  simpa using h2.2

theorem intercalate_singleton (a : Char) (x : List Char) :
    List.intercalate [a] [x] = x := by
  simp [List.intercalate, List.intersperse_singleton]

theorem intercalate_cons_cons (a : Char) (x y : List Char) (T : List (List Char)) :
    List.intercalate [a] (x :: y :: T) = x ++ a :: List.intercalate [a] (y :: T) := by
  simp [List.intercalate, List.intersperse_cons_cons]

theorem intercalate_concat_empty (a : Char) (A : List (List Char)) (hA : A ≠ []) :
    List.intercalate [a] (A ++ [[]]) = List.intercalate [a] A ++ [a] := by
  induction A with
  | nil => exact absurd rfl hA
  | cons x A ih =>
    cases A with
    | nil => simp [intercalate_cons_cons, intercalate_singleton]
    | cons y A' =>
      have hih := ih (by simp)
      calc List.intercalate [a] ((x :: y :: A') ++ [[]])
          = x ++ a :: List.intercalate [a] ((y :: A') ++ [[]]) :=
            intercalate_cons_cons a x y (A' ++ [[]])
        _ = x ++ a :: (List.intercalate [a] (y :: A') ++ [a]) := by rw [hih]
        _ = (x ++ a :: List.intercalate [a] (y :: A')) ++ [a] := by simp
        _ = List.intercalate [a] (x :: y :: A') ++ [a] := by rw [intercalate_cons_cons]

/-- Appending `k` empty lines appends `k` separators. -/
theorem intercalate_append_empties (a : Char) (A : List (List Char)) (hA : A ≠ [])
    (k : Nat) :
    List.intercalate [a] (A ++ List.replicate k []) =
      List.intercalate [a] A ++ List.replicate k a := by
  induction k generalizing A with
  | zero => simp
  | succ k ih =>
    have h1 : A ++ List.replicate (k + 1) [] = (A ++ [[]]) ++ List.replicate k [] := by
      simp [List.replicate_succ]
    rw [h1, ih (A ++ [[]]) (by simp), intercalate_concat_empty a A hA]
    simp [List.replicate_succ]

theorem intercalate_head (a : Char) (c : List Char) (T : List (List Char)) :
    ∃ Y, List.intercalate [a] (c :: T) = c ++ Y := by
  cases T with
  | nil => exact ⟨[], by simp [intercalate_singleton]⟩
  | cons y T' => exact ⟨a :: List.intercalate [a] (y :: T'), intercalate_cons_cons a c y T'⟩

theorem intercalate_last (a : Char) (T : List (List Char)) (e : List Char) :
    ∃ P, List.intercalate [a] (T ++ [e]) = P ++ e := by
  induction T with
  | nil => exact ⟨[], by simp [intercalate_singleton]⟩
  | cons x T' ih =>
    obtain ⟨P, hP⟩ := ih
    cases hT : T' ++ [e] with
    | nil => exact absurd hT (by simp)
    | cons z zs =>
      refine ⟨x ++ a :: P, ?_⟩
      rw [List.cons_append, hT, intercalate_cons_cons, ← hT, hP]
      simp

/-- Every character of an `intercalate [a]` result is the separator or
comes from an element. -/
theorem mem_intercalate {a ch : Char} {L : List (List Char)}
    (h : ch ∈ List.intercalate [a] L) : ch = a ∨ ∃ x ∈ L, ch ∈ x := by
  unfold List.intercalate at h
  obtain ⟨piece, hpiece, hch⟩ := List.mem_flatten.mp h
  have : piece = [a] ∨ piece ∈ L := by
    clear hch h
    induction L with
    | nil => simp [List.intersperse] at hpiece
    | cons x T ih =>
      cases T with
      | nil =>
        rw [List.intersperse_singleton, List.mem_singleton] at hpiece
        exact Or.inr (by simp [hpiece])
      | cons y T' =>
        rw [List.intersperse_cons_cons] at hpiece
        rcases List.mem_cons.mp hpiece with rfl | h2
        · exact Or.inr (List.mem_cons_self _ _)
        · rcases List.mem_cons.mp h2 with rfl | h3
          · exact Or.inl rfl
          · rcases ih h3 with h4 | h4
            · exact Or.inl h4
            · exact Or.inr (List.mem_cons_of_mem _ h4)
  rcases this with rfl | hmem
  · simp at hch
    exact Or.inl hch
  · exact Or.inr ⟨piece, hmem, hch⟩

end Hedwig

namespace Hedwig

/-- Drop the trailing empty lines of a scan output. -/
def dropTrailingEmpty (R : List (List Char)) : List (List Char) :=
  (R.reverse.dropWhile (fun e => e.isEmpty)).reverse

/-- A list is its trailing-empty-free part plus trailing empties. -/
theorem dte_decomp (R : List (List Char)) :
    ∃ k, R = dropTrailingEmpty R ++ List.replicate k [] := by
  refine ⟨(R.reverse.takeWhile (fun e : List Char => e.isEmpty)).length, ?_⟩
  have hsplit := List.takeWhile_append_dropWhile (p := fun e : List Char => e.isEmpty)
    (l := R.reverse)
  have h1 : R = dropTrailingEmpty R
      ++ (R.reverse.takeWhile (fun e : List Char => e.isEmpty)).reverse := by
    conv_lhs => rw [← List.reverse_reverse R, ← hsplit]
    rw [List.reverse_append]
    rfl
  have h2 : (R.reverse.takeWhile (fun e : List Char => e.isEmpty)).reverse
      = List.replicate (R.reverse.takeWhile (fun e : List Char => e.isEmpty)).length
          ([] : List Char) := by
    have hall : ∀ b ∈ (R.reverse.takeWhile (fun e : List Char => e.isEmpty)).reverse,
        b = ([] : List Char) := by
      intro b hb
      have := List.mem_takeWhile_imp (List.mem_reverse.mp hb)
      exact List.isEmpty_iff.mp this
    have := List.eq_replicate_of_mem hall
    rwa [List.length_reverse] at this
  rw [← h2]
  exact h1

/-- Dropping trailing empties from a list headed by a non-empty element
keeps the head and removes exactly the trailing empties. -/
theorem dte_cons {c : List Char} {M : List (List Char)} (hc : c ≠ []) :
    ∃ M' k, dropTrailingEmpty (c :: M) = c :: M'
      ∧ M = M' ++ List.replicate k [] := by
  obtain ⟨k, hk⟩ := dte_decomp (c :: M)
  cases hd : dropTrailingEmpty (c :: M) with
  | nil =>
    rw [hd, List.nil_append] at hk
    exfalso
    apply hc
    exact List.eq_of_mem_replicate (hk ▸ List.mem_cons_self c M)
  | cons c' M' =>
    rw [hd, List.cons_append] at hk
    injection hk with h1 h2
    subst h1
    exact ⟨M', k, rfl, h2⟩

/-- The last element surviving `dropTrailingEmpty` is non-empty. -/
theorem dte_last (R : List (List Char)) :
    dropTrailingEmpty R = []
    ∨ ∃ T e, dropTrailingEmpty R = T ++ [e] ∧ e ≠ [] := by
  cases hd : R.reverse.dropWhile (fun e : List Char => e.isEmpty) with
  | nil => exact Or.inl (by simp [dropTrailingEmpty, hd])
  | cons e T =>
    refine Or.inr ⟨T.reverse, e, by simp [dropTrailingEmpty, hd], ?_⟩
    have h1 := headOk_dropWhile (fun e : List Char => e.isEmpty) R.reverse
    rw [hd] at h1
    have h2 := h1 e (by simp)
    simpa using h2

end Hedwig

namespace Hedwig

/-- The per-line conditions under which the scan pushed a content line:
trimmed on both sides, non-empty is recorded separately, and none of the
stop/skip conditions fire. -/
def scanKeep (x : List Char) : Prop :=
  x.dropWhile Char.isWhitespace = x
  ∧ x.reverse.dropWhile Char.isWhitespace = x.reverse
  ∧ isGmailSep (x.map Char.toLower) = false
  ∧ isOriginalMsg (x.map Char.toLower) = false
  ∧ List.isPrefixOf ['>'] x = false

/-- Shape of an element produced by the scan after content has started:
an empty kept separator, or a kept content line (which in addition
passed the quoted-header check). -/
def scanElem (x : List Char) : Prop :=
  x = []
  ∨ (x ≠ [] ∧ scanKeep x ∧ isHeaderBlock (x.map Char.toLower) = false)

theorem trimWs_eq_self_of_parts {x : List Char}
    (h1 : x.dropWhile Char.isWhitespace = x)
    (h2 : x.reverse.dropWhile Char.isWhitespace = x.reverse) :
    trimWs x = x := by
  unfold trimWs
  rw [h1, h2, List.reverse_reverse]

/-- Every element of a started scan satisfies `scanElem`. -/
theorem scan_true_elems (R : List (List Char)) :
    ∀ x ∈ scanLines true R, scanElem x := by
  induction R with
  | nil => intro x hx; simp [scanLines] at hx
  | cons line rest ih =>
    intro x hx
    simp only [scanLines] at hx
    by_cases hblank : trimWs line = []
    · rw [if_pos hblank, if_pos (by trivial)] at hx
      rcases List.mem_cons.mp hx with rfl | h2
      · exact Or.inl rfl
      · exact ih x h2
    · rw [if_neg hblank] at hx
      by_cases hsep : (isGmailSep ((trimWs line).map Char.toLower)
          || isOriginalMsg ((trimWs line).map Char.toLower)) = true
      · rw [if_pos hsep] at hx
        simp at hx
      · rw [if_neg hsep] at hx
        by_cases hhdr : (isHeaderBlock ((trimWs line).map Char.toLower) && true) = true
        · rw [if_pos hhdr] at hx
          simp at hx
        · rw [if_neg hhdr] at hx
          by_cases hq : List.isPrefixOf ['>'] (trimWs line) = true
          · rw [if_pos hq] at hx
            exact ih x hx
          · rw [if_neg hq] at hx
            rcases List.mem_cons.mp hx with rfl | h2
            · refine Or.inr ⟨hblank, ⟨(trimWs_parts line).1, (trimWs_parts line).2,
                ?_, ?_, Bool.eq_false_iff.mpr hq⟩, ?_⟩
              · exact Bool.eq_false_iff.mpr (fun hc => hsep (by simp [hc]))
              · exact Bool.eq_false_iff.mpr (fun hc => hsep (by simp [hc]))
              · exact Bool.eq_false_iff.mpr (fun hc => hhdr (by simp [hc]))
            · exact ih x h2

/-- Shape of an unstarted scan: empty, or a kept first content line
followed by a started scan of the remaining lines. -/
theorem scan_false_shape (R : List (List Char)) :
    scanLines false R = []
    ∨ ∃ c R', scanLines false R = c :: scanLines true R' ∧ c ≠ [] ∧ scanKeep c := by
  induction R with
  | nil => exact Or.inl rfl
  | cons line rest ih =>
    by_cases hblank : trimWs line = []
    · have heq : scanLines false (line :: rest) = scanLines false rest := by
        simp only [scanLines]
        rw [if_pos hblank, if_neg (by simp)]
      rw [heq]
      exact ih
    · by_cases hsep : (isGmailSep ((trimWs line).map Char.toLower)
          || isOriginalMsg ((trimWs line).map Char.toLower)) = true
      · refine Or.inl ?_
        simp only [scanLines]
        rw [if_neg hblank, if_pos hsep]
      · by_cases hq : List.isPrefixOf ['>'] (trimWs line) = true
        · have heq : scanLines false (line :: rest) = scanLines false rest := by
            simp only [scanLines]
            rw [if_neg hblank, if_neg hsep, if_neg (by simp), if_pos hq]
          rw [heq]
          exact ih
        · refine Or.inr ⟨trimWs line, rest, ?_, hblank, (trimWs_parts line).1,
            (trimWs_parts line).2, ?_, ?_, Bool.eq_false_iff.mpr hq⟩
          · simp only [scanLines]
            rw [if_neg hblank, if_neg hsep, if_neg (by simp), if_neg hq]
          · exact Bool.eq_false_iff.mpr (fun hc => hsep (by simp [hc]))
          · exact Bool.eq_false_iff.mpr (fun hc => hsep (by simp [hc]))

end Hedwig

namespace Hedwig

/-- A started scan leaves a list of `scanElem` lines unchanged. -/
theorem scan_true_fix (M : List (List Char)) (hM : ∀ x ∈ M, scanElem x) :
    scanLines true M = M := by
  induction M with
  | nil => rfl
  | cons x M ih =>
    have hx := hM x (List.mem_cons_self _ _)
    have hrest : ∀ y ∈ M, scanElem y := fun y hy => hM y (List.mem_cons_of_mem _ hy)
    rcases hx with rfl | ⟨hne, ⟨h1, h2, hg, ho, hq⟩, hh⟩
    · show scanLines true ([] :: M) = [] :: M
      simp only [scanLines]
      rw [if_pos (show trimWs [] = [] from rfl), if_pos (by trivial), ih hrest]
    · have htr : trimWs x = x := trimWs_eq_self_of_parts h1 h2
      simp only [scanLines]
      rw [htr, if_neg hne, if_neg (by simp [hg, ho]), if_neg (by simp [hh]),
        if_neg (by simp [hq]), ih hrest]

/-- An unstarted scan leaves a kept content line followed by `scanElem`
lines unchanged. -/
theorem scan_false_fix (c : List Char) (M : List (List Char)) (hc : c ≠ [])
    (hk : scanKeep c) (hM : ∀ x ∈ M, scanElem x) :
    scanLines false (c :: M) = c :: M := by
  obtain ⟨h1, h2, hg, ho, hq⟩ := hk
  have htr : trimWs c = c := trimWs_eq_self_of_parts h1 h2
  simp only [scanLines]
  rw [htr, if_neg hc, if_neg (by simp [hg, ho]), if_neg (by simp),
    if_neg (by simp [hq]), scan_true_fix M hM]

/-- Every character of a scan output comes from some input line. -/
theorem scan_chars (R : List (List Char)) :
    ∀ b x, x ∈ scanLines b R → ∀ ch ∈ x, ∃ line ∈ R, ch ∈ line := by
  induction R with
  | nil => intro b x hx; simp [scanLines] at hx
  | cons line rest ih =>
    intro b x hx ch hch
    simp only [scanLines] at hx
    by_cases hblank : trimWs line = []
    · rw [if_pos hblank] at hx
      by_cases hb : b = true
      · rw [if_pos hb] at hx
        rcases List.mem_cons.mp hx with rfl | h2
        · simp at hch
        · obtain ⟨l, hl, hchl⟩ := ih b x h2 ch hch
          exact ⟨l, List.mem_cons_of_mem _ hl, hchl⟩
      · rw [if_neg hb] at hx
        obtain ⟨l, hl, hchl⟩ := ih b x hx ch hch
        exact ⟨l, List.mem_cons_of_mem _ hl, hchl⟩
    · rw [if_neg hblank] at hx
      by_cases hsep : (isGmailSep ((trimWs line).map Char.toLower)
          || isOriginalMsg ((trimWs line).map Char.toLower)) = true
      · rw [if_pos hsep] at hx
        simp at hx
      · rw [if_neg hsep] at hx
        by_cases hhdr : (isHeaderBlock ((trimWs line).map Char.toLower) && b) = true
        · rw [if_pos hhdr] at hx
          simp at hx
        · rw [if_neg hhdr] at hx
          by_cases hq : List.isPrefixOf ['>'] (trimWs line) = true
          · rw [if_pos hq] at hx
            obtain ⟨l, hl, hchl⟩ := ih b x hx ch hch
            exact ⟨l, List.mem_cons_of_mem _ hl, hchl⟩
          · rw [if_neg hq] at hx
            rcases List.mem_cons.mp hx with rfl | h2
            · exact ⟨line, List.mem_cons_self _ _, mem_trimWs hch⟩
            · obtain ⟨l, hl, hchl⟩ := ih true x h2 ch hch
              exact ⟨l, List.mem_cons_of_mem _ hl, hchl⟩

/-- An intercalation of scan-kept lines is non-empty and trimmed on both
sides. -/
theorem intercalate_scan_parts {c : List Char} {M' : List (List Char)} (hcne : c ≠ [])
    (hk1 : c.dropWhile Char.isWhitespace = c)
    (hlastp : ∃ T e, c :: M' = T ++ [e] ∧ e ≠ []
      ∧ e.reverse.dropWhile Char.isWhitespace = e.reverse) :
    List.intercalate ['\n'] (c :: M') ≠ []
    ∧ (List.intercalate ['\n'] (c :: M')).dropWhile Char.isWhitespace
        = List.intercalate ['\n'] (c :: M')
    ∧ (List.intercalate ['\n'] (c :: M')).reverse.dropWhile Char.isWhitespace
        = (List.intercalate ['\n'] (c :: M')).reverse := by
  obtain ⟨Y, hXY⟩ := intercalate_head '\n' c M'
  obtain ⟨T, e, hTe, hene, herev⟩ := hlastp
  obtain ⟨P, hPe⟩ := intercalate_last '\n' T e
  refine ⟨?_, ?_, ?_⟩
  · rw [hXY]
    cases c with
    | nil => exact absurd rfl hcne
    | cons c0 ct => simp
  · apply dropWhile_eq_self_of_headOk
    intro ch hch
    cases hc : c with
    | nil => exact absurd hc hcne
    | cons c0 ct =>
      rw [hXY, hc] at hch
      simp only [List.cons_append, List.head?_cons, Option.mem_def,
        Option.some.injEq] at hch
      subst hch
      have hh := dropWhile_self_headOk (hc ▸ hk1)
      exact hh c0 (by simp)
  · apply dropWhile_eq_self_of_headOk
    intro ch hch
    rw [hTe, hPe, List.reverse_append] at hch
    cases her : e.reverse with
    | nil =>
      exact absurd (by rw [← List.reverse_reverse e, her]; rfl) hene
    | cons e0 et =>
      rw [her] at hch
      simp only [List.cons_append, List.head?_cons, Option.mem_def,
        Option.some.injEq] at hch
      subst hch
      have hh := dropWhile_self_headOk herev
      rw [her] at hh
      exact hh e0 (by simp)

end Hedwig

namespace Hedwig

/-- **C9 (amended)**: reply cleaning is idempotent on every input whose
main line scan produces a non-empty reply: re-applying the extraction of
`extract_reply_text` to its own output returns it unchanged.  (Outputs
of the blank-paragraph fallback are outside this guarantee: a second
application may trim them further, see the counterexample.) -/
theorem extract_reply_main_idempotent (s : List Char) (hne : mainReply s ≠ []) :
    extractReplyText (extractReplyText s) = extractReplyText s := by
  rcases scan_false_shape (rustLines (s.filter (fun c => c ≠ '\r'))) with hempty |
    ⟨c, R', hshape, hcne, hkeep⟩
  · exfalso
    apply hne
    unfold mainReply
    rw [hempty]
    decide
  · have hMel : ∀ x ∈ scanLines true R', scanElem x := scan_true_elems R'
    obtain ⟨M', k, hdte, hMdec⟩ := dte_cons (M := scanLines true R') hcne
    have hM'el : ∀ x ∈ M', scanElem x := by
      intro x hx
      apply hMel
      rw [hMdec]
      exact List.mem_append_left _ hx
    have hlast : ∃ T e, (c :: M' : List (List Char)) = T ++ [e] ∧ e ≠ [] := by
      rcases dte_last (c :: scanLines true R') with h | ⟨T, e, hTe, hene⟩
      · rw [hdte] at h
        exact absurd h (by simp)
      · rw [hdte] at hTe
        exact ⟨T, e, hTe, hene⟩
    have hparts2 : ∀ x ∈ (c :: M' : List (List Char)),
        x.reverse.dropWhile Char.isWhitespace = x.reverse := by
      intro x hx
      rcases List.mem_cons.mp hx with rfl | h2
      · exact hkeep.2.1
      · rcases hM'el x h2 with rfl | ⟨_, hk, _⟩
        · rfl
        · exact hk.2.1
    have hlastp : ∃ T e, (c :: M' : List (List Char)) = T ++ [e] ∧ e ≠ []
        ∧ e.reverse.dropWhile Char.isWhitespace = e.reverse := by
      obtain ⟨T, e, hTe, hene⟩ := hlast
      refine ⟨T, e, hTe, hene, hparts2 e ?_⟩
      rw [hTe]
      exact List.mem_append_right _ (by simp)
    obtain ⟨hXne, hXhead, hXlast⟩ := intercalate_scan_parts hcne hkeep.1 hlastp
    have hmemL : ∀ x ∈ (c :: M' : List (List Char)),
        x ∈ scanLines false (rustLines (s.filter (fun c => c ≠ '\r'))) := by
      intro x hx
      rw [hshape]
      rcases List.mem_cons.mp hx with rfl | h2
      · exact List.mem_cons_self _ _
      · apply List.mem_cons_of_mem
        rw [hMdec]
        exact List.mem_append_left _ h2
    have hchars : ∀ x ∈ (c :: M' : List (List Char)), ∀ ch ∈ x,
        ch ∈ s.filter (fun c => c ≠ '\r') ∧ ch ≠ '\n' := by
      intro x hx ch hch
      obtain ⟨line, hline, hchl⟩ := scan_chars _ false x (hmemL x hx) ch hch
      exact rustLines_chars hline ch hchl
    have hmain : mainReply s = List.intercalate ['\n'] (c :: M') := by
      unfold mainReply
      rw [hshape, hMdec,
        show (c :: (M' ++ List.replicate k ([] : List Char)))
          = (c :: M') ++ List.replicate k [] from rfl,
        intercalate_append_empties '\n' (c :: M') (by simp) k]
      exact trimWs_append_newlines _ k hXne hXhead hXlast
    have hfilter : (List.intercalate ['\n'] (c :: M')).filter (fun ch => ch ≠ '\r')
        = List.intercalate ['\n'] (c :: M') := by
      rw [List.filter_eq_self]
      intro ch hch
      rcases mem_intercalate hch with rfl | ⟨x, hx, hchx⟩
      · decide
      · exact (List.mem_filter.mp (hchars x hx ch hchx).1).2
    have hnl : ∀ l ∈ (c :: M' : List (List Char)), '\n' ∉ l := by
      intro l hl hcontra
      exact (hchars l hl '\n' hcontra).2 rfl
    have hsplit : (List.intercalate ['\n'] (c :: M')).splitOn '\n' = c :: M' :=
      List.splitOn_intercalate (c :: M') '\n' hnl (by simp)
    have hrl : rustLines (List.intercalate ['\n'] (c :: M')) = c :: M' := by
      have hlastne : (c :: M' : List (List Char)).getLast? ≠ some [] := by
        obtain ⟨T, e, hTe, hene⟩ := hlast
        rw [hTe, getLast?_append_right T (by simp)]
        simp [hene]
      simp only [rustLines]
      rw [hsplit, if_neg hlastne]
    have hscan2 : scanLines false (c :: M') = c :: M' :=
      scan_false_fix c M' hcne hkeep hM'el
    have hmain2 : mainReply (List.intercalate ['\n'] (c :: M'))
        = List.intercalate ['\n'] (c :: M') := by
      unfold mainReply
      rw [hfilter, hrl, hscan2]
      exact trimWs_eq_self_of_parts hXhead hXlast
    have hext : extractReplyText s = mainReply s := by
      unfold extractReplyText
      rw [if_neg hne]
    rw [hext, hmain]
    unfold extractReplyText
    rw [if_neg (show ¬(mainReply (List.intercalate ['\n'] (c :: M')) = []) by
      rw [hmain2]; exact hXne)]
    exact hmain2

/-- The amended idempotence at a concrete input: the main scan of
`"Hello  \nWorld"` is non-empty, and the extraction is a fixpoint on its
output. -/
theorem extract_reply_main_idempotent_witness :
    mainReply "Hello  \nWorld".toList ≠ []
    ∧ extractReplyText (extractReplyText "Hello  \nWorld".toList)
        = extractReplyText "Hello  \nWorld".toList :=
  ⟨by decide, extract_reply_main_idempotent "Hello  \nWorld".toList (by decide)⟩

end Hedwig
